import Mathlib

/-!
Shallow embedding of the exam-scheduling core of the repository:
`src/core/scheduler.py`, `src/core/room_allocator.py`,
`src/core/graph_builder.py`.

Python dictionaries are modelled as insertion-ordered association lists,
`networkx` graphs as a node list plus a Boolean adjacency function, and
the process-global `random` module as an explicit stream of draws with a
cursor (see `Rng` below).  Machine integers are `Nat`/`Int`; fallible
Python operations (`max` of an empty sequence, `random.choice` of an
empty list, `dict[k]` lookup, `random.randint` on an empty range) are
modelled with `Except`/`Option`.
-/

namespace SchedCore

variable {V : Type} [DecidableEq V]

/-- Python `dict` keyed by course, with `int` values: an insertion-ordered
association list with unique keys. -/
abbrev Dict (V : Type) := List (V × Nat)

/-- Python `d.get(k)` / `k in d`: first binding of `k`, if any. -/
def dictGet : Dict V → V → Option Nat
  | [], _ => none
  | (k, v) :: rest, x => if x = k then some v else dictGet rest x

/-- Replace every binding of `k` by `(k, v)` in place. -/
def dictReplace : Dict V → V → Nat → Dict V
  | [], _, _ => []
  | (a, b) :: rest, k, v =>
    if a = k then (k, v) :: dictReplace rest k v else (a, b) :: dictReplace rest k v

/-- Python `d[k] = v`: replace the binding in place if the key is present
(Python keeps the key's position), otherwise append it. -/
def dictInsert (d : Dict V) (k : V) (v : Nat) : Dict V :=
  if d.any (fun p => p.1 = k) then dictReplace d k v else d ++ [(k, v)]

/-- Python `d.values()`. -/
def dictValues (d : Dict V) : List Nat := d.map (fun p => p.2)

/-- Python `max(l)` on a list of naturals: `none` on the empty list,
where CPython raises `ValueError: max() arg is an empty sequence`. -/
def pyMax : List Nat → Option Nat
  | [] => none
  | x :: xs => some (xs.foldl Nat.max x)

/-- The guarded form `max(d.values()) if d else 0` used for the
`num_periods` field. -/
def pyMaxD (d : Dict V) : Nat :=
  match pyMax (dictValues d) with
  | none => 0
  | some m => m

/-- The loop `c = 1; while c in used: c += 1`, with enough fuel to pass
every element of `used`.  `leastFreeFrom used c fuel` is the first value
`≥ c` outside `used`, provided the fuel suffices. -/
def leastFreeFrom (used : List Nat) : Nat → Nat → Nat
  | c, 0 => c
  | c, fuel + 1 => if c ∈ used then leastFreeFrom used (c + 1) fuel else c

/-- Smallest positive integer not in `used` (the color chosen by both
Greedy and DSATUR for one vertex). -/
def leastFree (used : List Nat) : Nat :=
  leastFreeFrom used 1 (used.length + 1)

/-- A `networkx.Graph`: nodes in insertion order plus Boolean adjacency.
Well-formedness (symmetry, irreflexivity, nodes unique, adjacency only
between nodes) is `GraphWF` below, a hypothesis of the theorems. -/
structure Graph (V : Type) where
  nodes : List V
  adj : V → V → Bool

/-- Invariants `networkx` maintains for every simple undirected graph. -/
def GraphWF (G : Graph V) : Prop :=
  G.nodes.Nodup ∧
  (∀ u w, G.adj u w = G.adj w u) ∧
  (∀ u, G.adj u u = false) ∧
  (∀ u w, G.adj u w = true → u ∈ G.nodes ∧ w ∈ G.nodes)

/-- The degree `G.degree(v)`: number of neighbors. -/
def Graph.degree (G : Graph V) (v : V) : Nat :=
  (G.nodes.filter (fun u => G.adj v u)).length

/-- Neighbors of `v` (membership is all that the algorithms use). -/
def Graph.neighbors (G : Graph V) (v : V) : List V :=
  G.nodes.filter (fun u => G.adj v u)

/-- Edge iteration `G.edges()`: each undirected edge listed once, ordered by the
position of its first endpoint in the node list. -/
def edgeListAux (G : Graph V) : List V → List (V × V)
  | [] => []
  | u :: rest => ((rest.filter (fun v => G.adj u v)).map (fun v => (u, v))) ++ edgeListAux G rest

def Graph.edgeList (G : Graph V) : List (V × V) := edgeListAux G G.nodes

/-- Maximum node degree of the graph (0 for the empty graph). -/
def maxDegree (G : Graph V) : Nat :=
  (G.nodes.map G.degree).foldl Nat.max 0

/-- The scan `_count_conflicts(G, color)`: edges whose endpoints get equal
`color.get` results (two absent endpoints compare equal, as `None ==
None` does). -/
def count_conflicts (G : Graph V) (color : Dict V) : Nat :=
  (G.edgeList.filter (fun e => dictGet color e.1 = dictGet color e.2)).length

/-- The `ScheduleResult` of `src/core/scheduler.py` — exactly the four
fields of the source dataclass. -/
structure ScheduleResult (V : Type) where
  colors : Dict V
  num_periods : Nat
  conflicts : Nat
  algorithm : String
  deriving DecidableEq

/-- Stable insertion of `x` into `l`: `x` goes before the first element
it strictly precedes, after every earlier-listed equal element. -/
def sinsert (lt : α → α → Bool) (x : α) : List α → List α
  | [] => [x]
  | y :: ys => if lt y x then y :: sinsert lt x ys else x :: y :: ys

/-- Stable sort with strict precedence `lt` — the unique output of any
stable sort (Python's `sorted`, pandas `sort_values`) for that key. -/
def ssort (lt : α → α → Bool) : List α → List α
  | [] => []
  | x :: xs => sinsert lt x (ssort lt xs)

/-- Python `sorted(G.nodes(), key=degree, reverse=True)`: degree-descending,
stable. -/
def greedyOrder (G : Graph V) : List V :=
  ssort (fun a b => G.degree a > G.degree b) G.nodes

/-- One coloring step shared by Greedy and DSATUR: collect the colors of
already-colored neighbors and assign the smallest free positive color. -/
def colorStep (G : Graph V) (color : Dict V) (v : V) : Dict V :=
  let used := (G.neighbors v).filterMap (fun u => dictGet color u)
  dictInsert color v (leastFree used)

/-- The function `greedy_coloring` (scheduler.py:18-27). -/
def greedy_coloring (G : Graph V) : ScheduleResult V :=
  let color := (greedyOrder G).foldl (colorStep G) []
  { colors := color
    num_periods := pyMaxD color
    conflicts := count_conflicts G color
    algorithm := "Greedy" }

/-- Python tuple comparison `a < b` on pairs of ints: lexicographic. -/
def lexLt (a b : Nat × Nat) : Bool :=
  a.1 < b.1 || (a.1 = b.1 && a.2 < b.2)

/-- Python `max(uncolored, key=...)` with lexicographic key
(saturation, degree): the first element attaining the maximum. -/
def argmaxBy (key : V → Nat × Nat) : List V → Option V
  | [] => none
  | x :: xs =>
    some (xs.foldl (fun best y =>
      if lexLt (key best) (key y) then y else best) x)

/-- First-occurrence deduplication (the contents of a Python set built
from a list), with an accumulator of elements already seen. -/
def uniqAux {α : Type} [DecidableEq α] (seen : List α) : List α → List α
  | [] => []
  | x :: xs => if x ∈ seen then uniqAux seen xs else x :: uniqAux (x :: seen) xs

def uniq {α : Type} [DecidableEq α] : List α → List α := uniqAux []

/-- The score `saturation(v)`: distinct colors among colored neighbors (`len` of
the Python set of those colors). -/
def saturation (G : Graph V) (color : Dict V) (v : V) : Nat :=
  (uniq ((G.neighbors v).filterMap (fun u => dictGet color u))).length

/-- DSATUR main loop (scheduler.py:38-48), fuelled by the number of
still-uncolored vertices.  The source also maintains a `sat_deg` map,
which it writes but never reads back for selection; it is dropped. -/
def dsaturGo (G : Graph V) : Nat → List V → Dict V → Dict V
  | 0, _, color => color
  | fuel + 1, uncolored, color =>
    match argmaxBy (fun x => (saturation G color x, G.degree x)) uncolored with
    | none => color
    | some v => dsaturGo G fuel (uncolored.erase v) (colorStep G color v)

/-- The function `dsatur_coloring` (scheduler.py:29-50). -/
def dsatur_coloring (G : Graph V) : ScheduleResult V :=
  let color := dsaturGo G G.nodes.length G.nodes []
  { colors := color
    num_periods := pyMaxD color
    conflicts := count_conflicts G color
    algorithm := "DSATUR" }

end SchedCore

namespace SchedCore

/-- Concrete graphs for witnesses: nodes `ns`, symmetric closure of
`pairs`, restricted to distinct endpoints inside `ns`. -/
def listGraph (ns : List Nat) (pairs : List (Nat × Nat)) : Graph Nat :=
  { nodes := ns
    adj := fun u v =>
      decide (((u, v) ∈ pairs ∨ (v, u) ∈ pairs) ∧ u ≠ v ∧ u ∈ ns ∧ v ∈ ns) }


/-- Triangle: three mutually conflicting courses. -/
def triangle : Graph Nat := listGraph [1, 2, 3] [(1, 2), (1, 3), (2, 3)]

end SchedCore

namespace SchedCore

variable {V : Type} [DecidableEq V]

/-! ### Simulated annealing (scheduler.py:52-93)

The module-global `random` source (`random.seed(42)` at import, then a
single advancing Mersenne-Twister state shared by every call) is
modelled as a fixed stream `vals : Nat → Nat` of draws together with a
cursor `k` that the call receives and returns: `random.choice(nodes)`
reads `vals k % len(nodes)`, `random.randint(1, m)` reads
`1 + vals k % m`, and the float test
`random.random() < math.exp(-dE / max(T, 1e-8))` is abstracted as a
Boolean `accept` of the consumed draw, `dE` and `T` (its exact value
involves floating point; every property proved here holds for every
such Boolean function).  Temperature is carried exactly as a rational.

Python dict objects live in an object store (`List (Dict V)`, refs are
indices) so that mutation of `current` and the `initial.copy()` at line
63 keep their aliasing behavior. -/

structure Rng where
  vals : Nat → Nat
  accept : Nat → Int → ℚ → Bool

def storeGet (σ : List (Dict V)) (r : Nat) : Dict V := σ.getD r []

def storeSet (σ : List (Dict V)) (r : Nat) (d : Dict V) : List (Dict V) := σ.set r d

/-- The loop state of scheduler.py:74-90: the object store, the ref of
`current`, `cur_conf`, `T`, and the RNG cursor. -/
structure SAState (V : Type) where
  store : List (Dict V)
  curRef : Nat
  curConf : Nat
  T : ℚ
  k : Nat

/-- One iteration of the `for it in range(max_iters)` body.  Returns the
new state and `true` when the loop continues (the `continue` at line 80
jumps over both `T *= alpha` (line 88) and the `cur_conf == 0` break
check (lines 89-90)). -/
def saStep (G : Graph V) (rng : Rng) (alpha : ℚ) (maxColors : Nat)
    (st : SAState V) : Except String (SAState V × Bool) :=
  match (G.nodes)[rng.vals st.k % G.nodes.length]? with
  | none => .error "IndexError: Cannot choose from an empty sequence"
  | some v =>
    match dictGet (storeGet st.store st.curRef) v with
    | none => .error "KeyError"
    | some old_c =>
      if maxColors = 0 then .error "ValueError: empty range for randrange()"
      else
        let new_c := 1 + rng.vals (st.k + 1) % maxColors
        if new_c = old_c then
          .ok ({ st with k := st.k + 2 }, true)
        else
          let cur' := dictInsert (storeGet st.store st.curRef) v new_c
          let newConf := count_conflicts G cur'
          let dE : Int := (newConf : Int) - (st.curConf : Int)
          if dE ≤ 0 then
            .ok ({ st with store := storeSet st.store st.curRef cur',
                           curConf := newConf, T := st.T * alpha, k := st.k + 2 },
                 decide (newConf ≠ 0))
          else
            if rng.accept (rng.vals (st.k + 2)) dE st.T then
              .ok ({ st with store := storeSet st.store st.curRef cur',
                             curConf := newConf, T := st.T * alpha, k := st.k + 3 },
                   decide (newConf ≠ 0))
            else
              .ok ({ st with store := storeSet st.store st.curRef (dictInsert cur' v old_c),
                             T := st.T * alpha, k := st.k + 3 },
                   decide (st.curConf ≠ 0))

/-- The iteration loop, fuelled by the remaining iteration budget. -/
def saLoop (G : Graph V) (rng : Rng) (alpha : ℚ) (maxColors : Nat) :
    Nat → SAState V → Except String (SAState V)
  | 0, st => .ok st
  | fuel + 1, st =>
    match saStep G rng alpha maxColors st with
    | .error e => .error e
    | .ok (st', cont) =>
      if cont then saLoop G rng alpha maxColors fuel st' else .ok st'

/-- Lines 64-65: `if max_colors is None: max_colors =
max(current.values())` — `max` of an empty sequence raises. -/
def getMaxColors (mc : Option Nat) (cur : Dict V) : Except String Nat :=
  match mc with
  | some m => .ok m
  | none =>
    match pyMax (dictValues cur) with
    | none => .error "ValueError: max() arg is an empty sequence"
    | some m => .ok m

/-- What a call to `simulated_annealing_coloring` leaves behind: the
object store after the call, the global RNG cursor after the call, and
the returned `ScheduleResult` (exactly its four fields — nothing else is
recorded or returned by the source). -/
structure SAOut (V : Type) where
  store : List (Dict V)
  kEnd : Nat
  result : ScheduleResult V

/-- Propagate a raised exception, otherwise continue (the shape of
straight-line Python code after a fallible statement). -/
def exceptThen {α β : Type} (x : Except String α) (f : α → Except String β) :
    Except String β :=
  match x with
  | .error e => .error e
  | .ok a => f a

/-- Lines 74-93 once `max_colors` is known: run the loop, then package
lines 92-93 (`used = max(current.values()) if current else 0` and the
`ScheduleResult`). -/
def saWrap (G : Graph V) (rng : Rng) (alpha : ℚ) (m : Nat) (max_iters : Nat)
    (st0 : SAState V) : Except String (SAOut V) :=
  match saLoop G rng alpha m max_iters st0 with
  | .error e => .error e
  | .ok st =>
    let cur := storeGet st.store st.curRef
    .ok ⟨st.store, st.k, ⟨cur, pyMaxD cur, st.curConf, "SimulatedAnnealing"⟩⟩

/-- The function `simulated_annealing_coloring` (scheduler.py:52-93).  `initialRef`
is the caller's dict ref for `initial` (`none` = Python `None`, lines
61-62 then build the seed from `greedy_coloring`); `store2` performs
`current = initial.copy()` (line 63); `k0` is the global RNG cursor at
entry. -/
def simulated_annealing_coloring (G : Graph V) (store0 : List (Dict V))
    (initialRef : Option Nat) (T0 alpha : ℚ) (max_iters : Nat)
    (max_colors : Option Nat) (rng : Rng) (k0 : Nat) :
    Except String (SAOut V) :=
  let p : List (Dict V) × Nat :=
    match initialRef with
    | some r => (store0, r)
    | none => (store0 ++ [(greedy_coloring G).colors], store0.length)
  let initD := storeGet p.1 p.2
  let store2 := p.1 ++ [initD]
  let curRef := p.1.length
  exceptThen (getMaxColors max_colors initD) (fun m =>
    saWrap G rng alpha m max_iters ⟨store2, curRef, count_conflicts G initD, T0, k0⟩)

/-- An RNG source from a plain stream, rejecting every uphill move. -/
def rngOf (f : Nat → Nat) : Rng := ⟨f, fun _ _ _ => false⟩

/-- Two independent courses. -/
def twoNodes : Graph Nat := listGraph [1, 2] []






end SchedCore

namespace SchedCore

variable {V : Type} [DecidableEq V]

/-! ### Conflict-graph builder (graph_builder.py:15-65)

Enrollments are `(student_id, course_id)` rows.  The source normalizes
both columns (`astype(str).str.strip()`, and `.str.upper()` for
courses), groups rows by student, and adds an edge for every unordered
pair of distinct courses inside one student's list.  pandas `groupby`
iterates students in sorted key order; the produced graph does not
depend on that order, and the embedding visits students in first
occurrence order. -/

def emptyGraph (V : Type) : Graph V := ⟨[], fun _ _ => false⟩

/-- networkx `G.add_node(a)`: appended once, adjacency untouched. -/
def addNode (g : Graph V) (a : V) : Graph V :=
  if a ∈ g.nodes then g else ⟨g.nodes ++ [a], g.adj⟩

/-- networkx `G.add_edge(a, b)`: both endpoints become nodes, and the undirected
pair `{a, b}` becomes adjacent (set semantics — re-adding is a no-op on
an adjacency that already holds). -/
def addEdge (g : Graph V) (a b : V) : Graph V :=
  ⟨(addNode (addNode g a) b).nodes,
   fun x y => g.adj x y || (x = a && y = b) || (x = b && y = a)⟩

/-- Python `str.upper()` (over the ASCII identifiers the data uses). -/
def pyUpper (s : String) : String := ⟨s.data.map Char.toUpper⟩

/-- Python `str.strip()`: drop leading and trailing whitespace. -/
def pyStrip (s : String) : String :=
  ⟨((s.data.dropWhile Char.isWhitespace).reverse.dropWhile Char.isWhitespace).reverse⟩

def normCourse (c : String) : String := pyUpper (pyStrip c)

def normStudent (s : String) : String := pyStrip s

def normRows (rows : List (String × String)) : List (String × String) :=
  rows.map (fun r => (normStudent r.1, normCourse r.2))

/-- The course list of one student after grouping: courses of the rows
carrying that (normalized) student id, in row order. -/
def coursesOf (nr : List (String × String)) (s : String) : List String :=
  (nr.filter (fun r => r.1 = s)).map (fun r => r.2)

/-- The inner `for j in range(i+1, n)` loop: pair the head course with
every later one. -/
def addPairsFrom (g : Graph String) (c : String) (rest : List String) : Graph String :=
  rest.foldl (fun g' d => if c ≠ d then addEdge g' c d else g') g

/-- The `for i in range(n)` loop over one student's course list. -/
def addPairs (g : Graph String) : List String → Graph String
  | [] => g
  | c :: rest => addPairs (addPairsFrom g c rest) rest

/-- The builder `build_conflict_graph_from_enrollments` (graph_builder.py:15-65):
nodes from the enrollment courses, optional roster nodes, then an edge
for every pair of distinct courses sharing a student. -/
def build_conflict_graph_from_enrollments (rows : List (String × String))
    (roster : Option (List String)) : Graph String :=
  let nr := normRows rows
  let g0 := (uniq (nr.map (fun r => r.2))).foldl addNode (emptyGraph String)
  let g1 :=
    match roster with
    | none => g0
    | some cs => (uniq (cs.map normCourse)).foldl addNode g0
  (uniq (nr.map (fun r => r.1))).foldl (fun g s => addPairs g (coursesOf nr s)) g1



/-! ### Room allocator (room_allocator.py:15-89)

`classrooms.sample(frac=1, random_state=42)` (line 38) applies one fixed
seeded permutation to the inventory; the embedding receives the already
shuffled inventory `(classroom_id, capacity)` as its argument.  pandas
`sort_values` is then a stable capacity-ascending sort of that list.
`groupby("timeslot_id")` visits each distinct period once, in ascending
order. -/

structure RoomAssignment where
  course : String
  tid : Nat
  rid : Int
  deriving DecidableEq

structure AllocState where
  rows : List RoomAssignment
  used : Nat → List Int

/-- Python `course_enrollment.get(cid, 0)`. -/
def lookupSize (enroll : List (String × Nat)) (c : String) : Nat :=
  match enroll.find? (fun e => e.1 = c) with
  | some e => e.2
  | none => 0

/-- The body of the course loop (room_allocator.py:58-87): smallest
unused room of sufficient capacity, else the largest unused room, else
the sentinel `-1`. -/
def allocCourse (roomsSorted : List (Int × Nat)) (st : AllocState) (cid : String)
    (tid : Nat) (size : Nat) : AllocState :=
  match (roomsSorted.find? (fun r => decide (r.1 ∉ st.used tid) && decide (size ≤ r.2))).map
      (fun r => r.1) with
  | some rid =>
    ⟨st.rows ++ [⟨cid, tid, rid⟩],
     fun t => if t = tid then rid :: st.used t else st.used t⟩
  | none =>
    match ((roomsSorted.map (fun r => r.1)).filter (fun rid => decide (rid ∉ st.used tid))).getLast? with
    | some rid =>
      ⟨st.rows ++ [⟨cid, tid, rid⟩],
       fun t => if t = tid then rid :: st.used t else st.used t⟩
    | none => ⟨st.rows ++ [⟨cid, tid, -1⟩], st.used⟩

/-- The `df_courses` frame: one `(course_id, timeslot_id, size)` row per
entry of the period assignment, in its order. -/
def dfCoursesOf (enroll : List (String × Nat)) (course_period : List (String × Nat)) :
    List (String × Nat × Nat) :=
  course_period.map (fun e => (e.1, e.2, lookupSize enroll e.1))

/-- One course row of a group handed to `allocCourse`. -/
def allocGroupStep (roomsSorted : List (Int × Nat)) (st : AllocState)
    (row : String × Nat × Nat) : AllocState :=
  allocCourse roomsSorted st row.1 row.2.1 row.2.2

/-- One `groupby` group: skipped when the timeslot id is not a valid
period, otherwise its courses are processed in decreasing-size order. -/
def allocTidStep (roomsSorted : List (Int × Nat)) (timeslots : List Nat)
    (dfCourses : List (String × Nat × Nat)) (st : AllocState) (tid : Nat) : AllocState :=
  if tid ∈ timeslots then
    (ssort (fun a b => a.2.2 > b.2.2) (dfCourses.filter (fun r => r.2.1 = tid))).foldl
      (allocGroupStep roomsSorted) st
  else st

/-- The function `allocate_rooms` (room_allocator.py:15-89). -/
def allocate_rooms (enroll : List (String × Nat)) (timeslots : List Nat)
    (course_period : List (String × Nat)) (roomsShuffled : List (Int × Nat)) :
    List RoomAssignment :=
  let roomsSorted := ssort (fun a b => a.2 < b.2) roomsShuffled
  let dfCourses := dfCoursesOf enroll course_period
  let tids := ssort (fun a b => a < b) (uniq (dfCourses.map (fun r => r.2.1)))
  (tids.foldl (allocTidStep roomsSorted timeslots dfCourses) ⟨[], fun _ => []⟩).rows



end SchedCore

namespace SchedCore

variable {V : Type} [DecidableEq V]

/-! ### Concrete inputs used by witnesses and counterexamples -/

/-- A single isolated course. -/
def oneNode : Graph Nat := listGraph [1] []

/-- The empty graph over `Nat` node labels. -/
def emptyNat : Graph Nat := ⟨[], fun _ _ => false⟩

/-- A concrete draw stream: 0, 1, 0, 0, 0, … -/
def rngC : Rng := rngOf (fun k => if k = 1 then 1 else 0)

/-- Variant of `rngC` with the draws before index 2 replaced — it agrees with
`rngC` from cursor 2 on. -/
def rngC' : Rng := rngOf (fun k => if k = 1 then 1 else if k < 2 then 7 else 0)

/-- A partial coloring is proper: no edge has both endpoints assigned
the same color. -/
def ProperOn (G : Graph V) (d : Dict V) : Prop :=
  ∀ u w c, G.adj u w = true → dictGet d u = some c → dictGet d w = some c → False

/-- Every value bound in the dict is at most `B`. -/
def ValuesLe (d : Dict V) (B : Nat) : Prop := ∀ p ∈ d, p.2 ≤ B

end SchedCore

namespace SchedCore

variable {V : Type} [DecidableEq V]

/-! ### Sanity evaluations of the embeddings on concrete inputs -/

theorem listGraph_WF (ns : List Nat) (pairs : List (Nat × Nat))
    (h : ns.Nodup) : GraphWF (listGraph ns pairs) := by
  refine ⟨h, ?_, ?_, ?_⟩
  · intro u w
    simp only [listGraph, decide_eq_decide]
    tauto
  · intro u
    simp [listGraph]
  · intro u w hadj
    simp only [listGraph, decide_eq_true_eq] at hadj
    exact ⟨hadj.2.2.1, hadj.2.2.2⟩

example :
    Except.map (fun o => o.result.colors)
      (simulated_annealing_coloring twoNodes [[(1, 1), (2, 2)]] (some 0) 1 1 2 none
        (rngOf (fun k => if k = 1 then 1 else 0)) 0) = .ok [(1, 2), (2, 2)] := rfl

example :
    Except.map (fun o => o.kEnd)
      (simulated_annealing_coloring twoNodes [[(1, 1), (2, 2)]] (some 0) 1 1 2 none
        (rngOf (fun k => if k = 1 then 1 else 0)) 0) = .ok 2 := rfl

example :
    Except.map (fun o => o.result.colors)
      (simulated_annealing_coloring twoNodes [[(1, 1), (2, 2)]] (some 0) 1 1 2 none
        (rngOf (fun k => if k = 1 then 1 else 0)) 2) = .ok [(1, 1), (2, 2)] := rfl

example :
    simulated_annealing_coloring (V := Nat) ⟨[], fun _ _ => false⟩ [] none 1 1 10 none
      (rngOf (fun _ => 0)) 0 = .error "ValueError: max() arg is an empty sequence" := rfl

example : (greedy_coloring triangle).conflicts = 0 := by decide

example : (greedy_coloring triangle).num_periods = 3 := by decide

example : (dsatur_coloring triangle).conflicts = 0 := by decide

example : (dsatur_coloring triangle).num_periods = 3 := by decide

example : (greedy_coloring (V := Nat) ⟨[], fun _ _ => false⟩) = ⟨[], 0, 0, "Greedy"⟩ := by decide

example :
    (build_conflict_graph_from_enrollments
      [("s1", " cs1 "), ("s1", "cs2"), ("s2", "cs2"), ("s2", "cs3")] none).adj "CS1" "CS2"
      = true := rfl

example :
    (build_conflict_graph_from_enrollments
      [("s1", " cs1 "), ("s1", "cs2"), ("s2", "cs2"), ("s2", "cs3")] none).adj "CS1" "CS3"
      = false := rfl

example :
    allocate_rooms [("A", 90), ("B", 60), ("C", 20)] [1]
      [("A", 1), ("B", 1), ("C", 1)] [(1, 30), (2, 50), (3, 100)] =
      [⟨"A", 1, 3⟩, ⟨"B", 1, 2⟩, ⟨"C", 1, 1⟩] := rfl

example :
    allocate_rooms [("A", 10), ("B", 10)] [1]
      [("A", 1), ("B", 1)] [(7, 30)] =
      [⟨"A", 1, 7⟩, ⟨"B", 1, -1⟩] := rfl

/-! ### Helper lemmas -/

theorem storeGet_append_self (σ : List (Dict V)) (d : Dict V) :
    storeGet (σ ++ [d]) σ.length = d := by
  induction σ with
  | nil => rfl
  | cons a as ih => simp only [List.cons_append, storeGet, List.getD] at ih ⊢; exact ih

/-! ### Claim C1 -/

/-- C1: on the empty graph (0 courses) `greedy_coloring` and
`dsatur_coloring` return period count 0 and conflict count 0, but
`simulated_annealing_coloring` (with its default `initial=None`,
`max_colors=None`) does not return a result at all: line 65,
`max_colors = max(current.values())`, raises `ValueError` on the empty
seed coloring.  This refutes the claim for the third algorithm. -/
theorem claim1_empty_graph (G : Graph V) (h : G.nodes = [])
    (store0 : List (Dict V)) (T0 alpha : ℚ) (max_iters : Nat) (rng : Rng) (k0 : Nat) :
    greedy_coloring G = ⟨[], 0, 0, "Greedy"⟩ ∧
    dsatur_coloring G = ⟨[], 0, 0, "DSATUR"⟩ ∧
    simulated_annealing_coloring G store0 none T0 alpha max_iters none rng k0 =
      .error "ValueError: max() arg is an empty sequence" := by
  obtain ⟨ns, adj⟩ := G
  simp only [Graph.nodes] at h
  subst h
  refine ⟨rfl, rfl, ?_⟩
  have hg : (greedy_coloring (⟨[], adj⟩ : Graph V)).colors = [] := rfl
  simp only [simulated_annealing_coloring, hg, storeGet_append_self]
  rfl

/-- Witness for C1 at the concrete empty graph. -/
theorem claim1_empty_graph_witness :
    emptyNat.nodes = [] ∧
    (greedy_coloring emptyNat = ⟨[], 0, 0, "Greedy"⟩ ∧
     dsatur_coloring emptyNat = ⟨[], 0, 0, "DSATUR"⟩ ∧
     simulated_annealing_coloring emptyNat [] none 1 1 10 none (rngOf (fun _ => 0)) 0 =
       .error "ValueError: max() arg is an empty sequence") :=
  ⟨rfl, claim1_empty_graph emptyNat rfl [] 1 1 10 (rngOf (fun _ => 0)) 0⟩

/-! ### Claim C4 -/

/-- C4, counterexample to the claim as stated: a concrete skipped
iteration (the proposal equals the current period) leaves the
temperature at `1`, while the claim requires it to become
`1 * α = 1/2`.  The `continue` at scheduler.py:80 jumps over
`T *= alpha` at line 88. -/
theorem claim4_counterexample :
    saStep oneNode (rngOf (fun _ => 0)) (1/2) 1 ⟨[[(1, 1)]], 0, 0, 1, 0⟩ =
      .ok (⟨[[(1, 1)]], 0, 0, 1, 2⟩, true) ∧ (1 : ℚ) ≠ (1 : ℚ) * (1/2) := by
  refine ⟨rfl, ?_⟩
  norm_num

/-- C4 amended: in an iteration whose proposal `new_c` equals the
current period `old_c`, the proposal is not applied (store, conflict
count unchanged), the iteration still counts toward the `max_iters`
budget (the loop consumes one unit of fuel and continues), but the
temperature is NOT multiplied by α — `T` is returned unchanged. -/
theorem claim4_skip_no_decay (G : Graph V) (rng : Rng) (alpha : ℚ) (m : Nat)
    (st : SAState V) (v : V) (old_c : Nat)
    (hv : (G.nodes)[rng.vals st.k % G.nodes.length]? = some v)
    (hold : dictGet (storeGet st.store st.curRef) v = some old_c)
    (hm : m ≠ 0)
    (heq : 1 + rng.vals (st.k + 1) % m = old_c) :
    saStep G rng alpha m st = .ok ({ st with k := st.k + 2 }, true) ∧
    ∀ fuel, saLoop G rng alpha m (fuel + 1) st =
      saLoop G rng alpha m fuel { st with k := st.k + 2 } := by
  have hstep : saStep G rng alpha m st = .ok ({ st with k := st.k + 2 }, true) := by
    unfold saStep
    rw [hv]
    simp [hold, hm, heq]
  refine ⟨hstep, fun fuel => ?_⟩
  conv_lhs => rw [saLoop, hstep]
  rfl

/-- Witness for the amended C4 at a concrete skipped iteration. -/
theorem claim4_skip_no_decay_witness :
    ((oneNode.nodes)[(rngOf (fun _ => 0)).vals 0 % oneNode.nodes.length]? = some 1 ∧
     dictGet (storeGet [[(1, 1)]] 0) 1 = some 1 ∧
     (1 : Nat) ≠ 0 ∧
     1 + (rngOf (fun _ => 0)).vals (0 + 1) % 1 = 1) ∧
    saStep oneNode (rngOf (fun _ => 0)) (1/2) 1 ⟨[[(1, 1)]], 0, 0, 1, 0⟩ =
      .ok ({ (⟨[[(1, 1)]], 0, 0, 1, 0⟩ : SAState Nat) with k := 0 + 2 }, true) ∧
    saLoop oneNode (rngOf (fun _ => 0)) (1/2) 1 3 ⟨[[(1, 1)]], 0, 0, 1, 0⟩ =
      saLoop oneNode (rngOf (fun _ => 0)) (1/2) 1 2
        { (⟨[[(1, 1)]], 0, 0, 1, 0⟩ : SAState Nat) with k := 0 + 2 } := by
  have h := claim4_skip_no_decay oneNode (rngOf (fun _ => 0)) (1/2) 1
    ⟨[[(1, 1)]], 0, 0, 1, 0⟩ 1 1 (by rfl) (by rfl) (by decide) (by rfl)
  exact ⟨⟨rfl, rfl, by decide, rfl⟩, h.1, h.2 2⟩

/-! ### Claim C5 -/

/-- C5, counterexample to the claim as stated: the source draws from the
module-global PRNG (`random.seed(42)` at import; no source is passed to
the function).  With one fixed seeded stream, a call and an immediately
following call with the *identical* graph, initial assignment and
parameters return different final assignments, because the second call
continues the stream at cursor 2, where the first call left it. -/
theorem claim5_counterexample :
    Except.map (fun o => o.kEnd)
      (simulated_annealing_coloring twoNodes [[(1, 1), (2, 2)]] (some 0) 1 1 2 none rngC 0) =
      .ok 2 ∧
    Except.map (fun o => o.result.colors)
      (simulated_annealing_coloring twoNodes [[(1, 1), (2, 2)]] (some 0) 1 1 2 none rngC 0) =
      .ok [(1, 2), (2, 2)] ∧
    Except.map (fun o => o.result.colors)
      (simulated_annealing_coloring twoNodes [[(1, 1), (2, 2)]] (some 0) 1 1 2 none rngC 2) =
      .ok [(1, 1), (2, 2)] ∧
    ([(1, 2), (2, 2)] : Dict Nat) ≠ [(1, 1), (2, 2)] := by
  exact ⟨rfl, rfl, rfl, by decide⟩

theorem exceptThen_congr {α β : Type} (x : Except String α)
    (f g : α → Except String β) (h : ∀ a, f a = g a) :
    exceptThen x f = exceptThen x g := by
  cases x with
  | error e => rfl
  | ok a => exact h a

theorem saStep_agree (G : Graph V) (rng1 rng2 : Rng) (alpha : ℚ) (m : Nat)
    (st : SAState V) (hacc : rng1.accept = rng2.accept)
    (h0 : rng1.vals st.k = rng2.vals st.k)
    (h1 : rng1.vals (st.k + 1) = rng2.vals (st.k + 1))
    (h2 : rng1.vals (st.k + 2) = rng2.vals (st.k + 2)) :
    saStep G rng1 alpha m st = saStep G rng2 alpha m st := by
  unfold saStep
  rw [h0, h1, h2, hacc]

theorem saStep_k_mono (G : Graph V) (rng : Rng) (alpha : ℚ) (m : Nat)
    (st st' : SAState V) (b : Bool)
    (h : saStep G rng alpha m st = .ok (st', b)) : st.k ≤ st'.k := by
  unfold saStep at h
  dsimp only at h
  repeat' split at h
  any_goals exact Except.noConfusion h
  all_goals (
    simp only [Except.ok.injEq, Prod.mk.injEq] at h;
    obtain ⟨h1, -⟩ := h;
    subst h1;
    dsimp only;
    omega)

theorem saLoop_agree (G : Graph V) (rng1 rng2 : Rng) (alpha : ℚ) (m : Nat)
    (hacc : rng1.accept = rng2.accept) (fuel : Nat) :
    ∀ st : SAState V, (∀ j, st.k ≤ j → rng1.vals j = rng2.vals j) →
      saLoop G rng1 alpha m fuel st = saLoop G rng2 alpha m fuel st := by
  induction fuel with
  | zero => intro st _; rfl
  | succ n ih =>
    intro st hv
    have hstep := saStep_agree G rng1 rng2 alpha m st hacc
      (hv _ le_rfl) (hv _ (by omega)) (hv _ (by omega))
    rw [saLoop, saLoop, hstep]
    cases h2 : saStep G rng2 alpha m st with
    | error e => rfl
    | ok p =>
      obtain ⟨st', b⟩ := p
      have hk := saStep_k_mono G rng2 alpha m st st' b h2
      cases b with
      | false => rfl
      | true =>
        show saLoop G rng1 alpha m n st' = saLoop G rng2 alpha m n st'
        exact ih st' (fun j hj => hv j (le_trans hk hj))

/-- C5 amended: `simulated_annealing_coloring` is a deterministic
function of its inputs and of the state of the module-global PRNG at
entry — two sources that agree on every draw from the entry cursor on
(and on the accept outcomes) give identical final stores, cursors and
results.  Reproducibility therefore holds per PRNG state, not per
process seed: the source is global, not passed in (cf. the
counterexample). -/
theorem claim5_deterministic (G : Graph V) (store0 : List (Dict V))
    (initialRef : Option Nat) (T0 alpha : ℚ) (max_iters : Nat)
    (max_colors : Option Nat) (rng1 rng2 : Rng) (k0 : Nat)
    (hacc : rng1.accept = rng2.accept)
    (hv : ∀ j, k0 ≤ j → rng1.vals j = rng2.vals j) :
    simulated_annealing_coloring G store0 initialRef T0 alpha max_iters max_colors rng1 k0 =
      simulated_annealing_coloring G store0 initialRef T0 alpha max_iters max_colors rng2 k0 := by
  simp only [simulated_annealing_coloring]
  apply exceptThen_congr
  intro m
  unfold saWrap
  rw [saLoop_agree G rng1 rng2 alpha m hacc max_iters _ hv]

/-- Witness for the amended C5: two sources differing before the entry
cursor 2 but agreeing from it on produce the same run. -/
theorem claim5_deterministic_witness :
    (rngC.accept = rngC'.accept ∧ ∀ j, 2 ≤ j → rngC.vals j = rngC'.vals j) ∧
    simulated_annealing_coloring twoNodes [[(1, 1), (2, 2)]] (some 0) 1 1 2 none rngC 2 =
      simulated_annealing_coloring twoNodes [[(1, 1), (2, 2)]] (some 0) 1 1 2 none rngC' 2 := by
  have hv : ∀ j, 2 ≤ j → rngC.vals j = rngC'.vals j := by
    intro j hj
    simp only [rngC, rngC', rngOf]
    have : ¬ j < 2 := by omega
    simp [this]
  exact ⟨⟨rfl, hv⟩,
    claim5_deterministic twoNodes [[(1, 1), (2, 2)]] (some 0) 1 1 2 none rngC rngC' 2 rfl hv⟩

/-! ### Claim C6 -/

/-- C6: evaluating the source on a concrete run.  The call returns only
the four-field `ScheduleResult` (plus, in this embedding, the object
store and RNG cursor that model Python process state): no per-iteration
conflict-count trajectory is recorded anywhere —
`src/benchmarks/generate_sa_convergence.py:48` reads `res.history`,
which does not exist on `ScheduleResult`. -/
theorem claim6_no_trajectory_recorded :
    simulated_annealing_coloring twoNodes [[(1, 1), (2, 2)]] (some 0) 1 1 2 none rngC 0 =
      .ok ⟨[[(1, 1), (2, 2)], [(1, 2), (2, 2)]], 2,
           ⟨[(1, 2), (2, 2)], 2, 0, "SimulatedAnnealing"⟩⟩ := rfl

/-! ### Claim C10 -/

theorem storeGet_set_ne (σ : List (Dict V)) (r j : Nat) (d : Dict V)
    (hne : j ≠ r) : storeGet (storeSet σ r d) j = storeGet σ j := by
  simp only [storeGet, storeSet, List.getD, List.get?_eq_getElem?]
  rw [List.getElem?_set_ne (by omega)]

theorem saStep_frame (G : Graph V) (rng : Rng) (alpha : ℚ) (m : Nat)
    (st st' : SAState V) (b : Bool)
    (h : saStep G rng alpha m st = .ok (st', b)) :
    st'.curRef = st.curRef ∧
    ∀ j, j ≠ st.curRef → storeGet st'.store j = storeGet st.store j := by
  unfold saStep at h
  dsimp only at h
  repeat' split at h
  any_goals exact Except.noConfusion h
  all_goals (
    simp only [Except.ok.injEq, Prod.mk.injEq] at h;
    obtain ⟨h1, -⟩ := h;
    subst h1;
    refine ⟨rfl, fun j hj => ?_⟩;
    first
    | exact storeGet_set_ne _ _ _ _ hj
    | rfl)

theorem saLoop_frame (G : Graph V) (rng : Rng) (alpha : ℚ) (m : Nat) (fuel : Nat) :
    ∀ st st' : SAState V, saLoop G rng alpha m fuel st = .ok st' →
      st'.curRef = st.curRef ∧
      ∀ j, j ≠ st.curRef → storeGet st'.store j = storeGet st.store j := by
  induction fuel with
  | zero =>
    intro st st' h
    simp only [saLoop, Except.ok.injEq] at h
    subst h
    exact ⟨rfl, fun j _ => rfl⟩
  | succ n ih =>
    intro st st' h
    rw [saLoop] at h
    cases hs : saStep G rng alpha m st with
    | error e => rw [hs] at h; exact Except.noConfusion h
    | ok p =>
      obtain ⟨st1, b⟩ := p
      rw [hs] at h
      obtain ⟨hf1, hf2⟩ := saStep_frame G rng alpha m st st1 b hs
      cases b with
      | false =>
        simp only [Bool.false_eq_true, if_false, Except.ok.injEq] at h
        subst h
        exact ⟨hf1, hf2⟩
      | true =>
        simp only [if_true] at h
        obtain ⟨h1, h2⟩ := ih st1 st' h
        refine ⟨h1.trans hf1, fun j hj => ?_⟩
        rw [h2 j (by rw [hf1]; exact hj), hf2 j hj]

/-- C10: `simulated_annealing_coloring` works on `current =
initial.copy()` (line 63) and only ever writes that copy: after a
successful call, the caller's `initial` dict object is unchanged in the
store. -/
theorem claim10_initial_unchanged (G : Graph V) (store0 : List (Dict V)) (r : Nat)
    (T0 alpha : ℚ) (max_iters : Nat) (max_colors : Option Nat) (rng : Rng) (k0 : Nat)
    (hr : r < store0.length) (out : SAOut V)
    (h : simulated_annealing_coloring G store0 (some r) T0 alpha max_iters
      max_colors rng k0 = .ok out) :
    storeGet out.store r = storeGet store0 r := by
  unfold simulated_annealing_coloring at h
  dsimp only at h
  cases hmc : getMaxColors max_colors (storeGet store0 r) with
  | error e => rw [hmc] at h; exact Except.noConfusion h
  | ok m =>
    rw [hmc] at h
    unfold exceptThen saWrap at h
    dsimp only at h
    cases hl : saLoop G rng alpha m max_iters
        ⟨store0 ++ [storeGet store0 r], store0.length,
         count_conflicts G (storeGet store0 r), T0, k0⟩ with
    | error e => rw [hl] at h; exact Except.noConfusion h
    | ok st =>
      rw [hl] at h
      simp only [Except.ok.injEq] at h
      subst h
      obtain ⟨h1, h2⟩ := saLoop_frame G rng alpha m max_iters _ st hl
      dsimp only at h1 h2 ⊢
      rw [h2 r (by omega)]
      simp only [storeGet, List.getD, List.get?_eq_getElem?]
      rw [List.getElem?_append_left hr]

/-- Witness for C10 at a concrete run. -/
theorem claim10_initial_unchanged_witness :
    ((0 : Nat) < 1 ∧
     simulated_annealing_coloring twoNodes [[(1, 1), (2, 2)]] (some 0) 1 1 2 none rngC 0 =
       .ok ⟨[[(1, 1), (2, 2)], [(1, 2), (2, 2)]], 2,
            ⟨[(1, 2), (2, 2)], 2, 0, "SimulatedAnnealing"⟩⟩) ∧
    storeGet [[(1, 1), (2, 2)], [(1, 2), (2, 2)]] 0 = storeGet [[(1, 1), (2, 2)]] 0 :=
  ⟨⟨by decide, rfl⟩,
   claim10_initial_unchanged twoNodes [[(1, 1), (2, 2)]] 0 1 1 2 none rngC 0
     (by decide) _ rfl⟩

/-! ### Claim C7, counterexample -/

/-- C7, counterexample to the claim as stated: a period assignment whose
period does not appear in the timeslot table yields NO row for that
(course, period) pair — room_allocator.py:52-53 `continue`s past any
group whose timeslot id is not a valid period, so the output is empty
rather than containing exactly one row. -/
theorem claim7_counterexample :
    allocate_rooms [("A", 10)] [] [("A", 1)] [(1, 50)] = [] ∧
    ("A", 1) ∈ ([("A", 1)] : List (String × Nat)) := ⟨rfl, by decide⟩

/-! ### Claims C2 and C3: the while-loop color choice -/

theorem length_filter_le_succ (used : List Nat) (c : Nat) :
    (used.filter (fun x => decide (c ≤ x))).length =
    (used.filter (fun x => decide (c + 1 ≤ x))).length + used.count c := by
  induction used with
  | nil => rfl
  | cons a as ih =>
    simp only [List.filter_cons, List.count_cons, beq_iff_eq]
    rcases Nat.lt_trichotomy a c with h | h | h
    · have h1 : ¬ c ≤ a := by omega
      have h2 : ¬ c + 1 ≤ a := by omega
      have h3 : ¬ a = c := by omega
      simp [h1, h2, h3, ih]
    · subst h
      have h1 : a ≤ a := le_refl a
      have h2 : ¬ a + 1 ≤ a := by omega
      simp [h1, h2, ih]
      omega
    · have h1 : c ≤ a := by omega
      have h2 : c + 1 ≤ a := by omega
      have h3 : ¬ a = c := by omega
      simp [h1, h2, h3, ih]
      omega

theorem leastFreeFrom_not_mem (used : List Nat) :
    ∀ fuel c, (used.filter (fun x => decide (c ≤ x))).length < fuel →
      leastFreeFrom used c fuel ∉ used := by
  intro fuel
  induction fuel with
  | zero => intro c h; omega
  | succ n ih =>
    intro c h
    by_cases hc : c ∈ used
    · have hcount : 0 < used.count c := List.count_pos_iff_mem.mpr hc
      have hlt : (used.filter (fun x => decide (c + 1 ≤ x))).length < n := by
        have := length_filter_le_succ used c
        omega
      simpa [leastFreeFrom, hc] using ih (c + 1) hlt
    · simpa [leastFreeFrom, hc] using hc

theorem leastFreeFrom_le (used : List Nat) :
    ∀ fuel c, (used.filter (fun x => decide (c ≤ x))).length < fuel →
      leastFreeFrom used c fuel ≤ c + (used.filter (fun x => decide (c ≤ x))).length := by
  intro fuel
  induction fuel with
  | zero => intro c h; omega
  | succ n ih =>
    intro c h
    by_cases hc : c ∈ used
    · have hcount : 0 < used.count c := List.count_pos_iff_mem.mpr hc
      have hsplit := length_filter_le_succ used c
      have hlt : (used.filter (fun x => decide (c + 1 ≤ x))).length < n := by omega
      have := ih (c + 1) hlt
      simp only [leastFreeFrom, hc, if_pos]
      omega
    · simp only [leastFreeFrom, hc, if_neg, not_false_iff]
      omega

theorem leastFree_not_mem (used : List Nat) : leastFree used ∉ used := by
  apply leastFreeFrom_not_mem
  have := List.length_filter_le (fun x => decide (1 ≤ x)) used
  omega

theorem leastFree_le (used : List Nat) : leastFree used ≤ used.length + 1 := by
  have hlen := List.length_filter_le (fun x => decide (1 ≤ x)) used
  have := leastFreeFrom_le used (used.length + 1) 1 (by omega)
  unfold leastFree
  omega

/-! ### Dict update lemmas -/

theorem dictGet_replace_self (d : Dict V) (k : V) (v : Nat)
    (h : d.any (fun p => p.1 = k) = true) :
    dictGet (dictReplace d k v) k = some v := by
  induction d with
  | nil => simp at h
  | cons p d' ih =>
    obtain ⟨a, b⟩ := p
    by_cases hp : a = k
    · subst hp
      simp [dictReplace, dictGet]
    · have h' : d'.any (fun q => decide (q.1 = k)) = true := by
        simpa [hp] using h
      have hka : ¬ k = a := fun hk => hp hk.symm
      simp [dictReplace, hp, dictGet, hka, ih h']

theorem dictGet_replace_ne (d : Dict V) (k x : V) (v : Nat) (hx : x ≠ k) :
    dictGet (dictReplace d k v) x = dictGet d x := by
  induction d with
  | nil => rfl
  | cons p d' ih =>
    obtain ⟨a, b⟩ := p
    by_cases hp : a = k
    · have hxa : ¬ x = a := by rw [hp]; exact hx
      simp [dictReplace, hp, dictGet, hx, hxa, ih]
    · by_cases hxa : x = a
      · simp [dictReplace, hp, dictGet, hxa]
      · simp [dictReplace, hp, dictGet, hxa, ih]

theorem dictGet_append_single_self (d : Dict V) (k : V) (v : Nat)
    (h : d.any (fun p => p.1 = k) = false) :
    dictGet (d ++ [(k, v)]) k = some v := by
  induction d with
  | nil => simp [dictGet]
  | cons p d' ih =>
    obtain ⟨a, b⟩ := p
    simp only [List.any_cons, Bool.or_eq_false_iff] at h
    have hp : ¬ k = a := by
      intro hk
      have := h.1
      simp [hk.symm] at this
    have h' : d'.any (fun q => decide (q.1 = k)) = false := h.2
    simp [dictGet, hp, ih h']

theorem dictGet_append_single_ne (d : Dict V) (k x : V) (v : Nat) (hx : x ≠ k) :
    dictGet (d ++ [(k, v)]) x = dictGet d x := by
  induction d with
  | nil => simp [dictGet, hx]
  | cons p d' ih =>
    obtain ⟨a, b⟩ := p
    by_cases hxp : x = a
    · simp [dictGet, hxp]
    · simp [dictGet, hxp, ih]

theorem dictGet_insert_self (d : Dict V) (k : V) (v : Nat) :
    dictGet (dictInsert d k v) k = some v := by
  unfold dictInsert
  by_cases h : d.any (fun p => p.1 = k) = true
  · simp only [h, if_true]
    exact dictGet_replace_self d k v h
  · rw [Bool.not_eq_true] at h
    simp only [h, Bool.false_eq_true, if_false]
    exact dictGet_append_single_self d k v h

theorem dictGet_insert_ne (d : Dict V) (k x : V) (v : Nat) (hx : x ≠ k) :
    dictGet (dictInsert d k v) x = dictGet d x := by
  unfold dictInsert
  by_cases h : d.any (fun p => p.1 = k) = true
  · simp only [h, if_true]
    exact dictGet_replace_ne d k x v hx
  · simp only [h, if_false]
    exact dictGet_append_single_ne d k x v hx

theorem dictGet_insert_isSome (d : Dict V) (k x : V) (v : Nat)
    (h : (dictGet d x).isSome = true) :
    (dictGet (dictInsert d k v) x).isSome = true := by
  by_cases hx : x = k
  · subst hx
    rw [dictGet_insert_self]
    rfl
  · rw [dictGet_insert_ne d k x v hx]
    exact h

theorem mem_of_dictInsert (d : Dict V) (k : V) (v : Nat) (p : V × Nat)
    (h : p ∈ dictInsert d k v) : p ∈ d ∨ p = (k, v) := by
  unfold dictInsert at h
  by_cases ha : d.any (fun q => q.1 = k) = true
  · rw [if_pos ha] at h
    clear ha
    induction d with
    | nil => simpa [dictReplace] using h
    | cons q d' ih =>
      obtain ⟨a, b⟩ := q
      by_cases hq : a = k
      · rw [dictReplace, if_pos hq] at h
        rcases List.mem_cons.mp h with h1 | h1
        · exact Or.inr h1
        · rcases ih h1 with h2 | h2
          · exact Or.inl (List.mem_cons_of_mem _ h2)
          · exact Or.inr h2
      · rw [dictReplace, if_neg hq] at h
        rcases List.mem_cons.mp h with h1 | h1
        · exact Or.inl (h1 ▸ List.mem_cons_self _ _)
        · rcases ih h1 with h2 | h2
          · exact Or.inl (List.mem_cons_of_mem _ h2)
          · exact Or.inr h2
  · rw [if_neg ha] at h
    rcases List.mem_append.mp h with h1 | h1
    · exact Or.inl h1
    · right
      simpa using h1

/-! ### Properness of the shared coloring step -/

theorem mem_neighborColors (G : Graph V) (d : Dict V) (v w : V) (c : Nat)
    (hw : w ∈ G.nodes) (hadj : G.adj v w = true) (hc : dictGet d w = some c) :
    c ∈ (G.neighbors v).filterMap (fun u => dictGet d u) := by
  apply List.mem_filterMap.mpr
  refine ⟨w, ?_, hc⟩
  unfold Graph.neighbors
  exact List.mem_filter.mpr ⟨hw, hadj⟩

theorem colorStep_proper (G : Graph V) (hwf : GraphWF G) (d : Dict V) (v : V)
    (hp : ProperOn G d) : ProperOn G (colorStep G d v) := by
  obtain ⟨-, hsym, hirr, hmem⟩ := hwf
  intro u w c hadj hu hw
  unfold colorStep at hu hw
  by_cases huv : u = v
  · by_cases hwv : w = v
    · rw [huv, hwv, hirr v] at hadj
      exact Bool.noConfusion hadj
    · rw [huv] at hu hadj
      rw [dictGet_insert_self] at hu
      rw [dictGet_insert_ne _ _ _ _ hwv] at hw
      have hcmem : c ∈ (G.neighbors v).filterMap (fun x => dictGet d x) :=
        mem_neighborColors G d v w c (hmem v w hadj).2 hadj hw
      have hnm := leastFree_not_mem ((G.neighbors v).filterMap (fun x => dictGet d x))
      rw [← Option.some_inj.mp hu] at hcmem
      exact hnm hcmem
  · by_cases hwv : w = v
    · rw [hwv] at hw hadj
      rw [dictGet_insert_self] at hw
      rw [dictGet_insert_ne _ _ _ _ huv] at hu
      have hadj2 : G.adj v u = true := by rw [hsym v u]; exact hadj
      have hcmem : c ∈ (G.neighbors v).filterMap (fun x => dictGet d x) :=
        mem_neighborColors G d v u c (hmem u v hadj).1 hadj2 hu
      have hnm := leastFree_not_mem ((G.neighbors v).filterMap (fun x => dictGet d x))
      rw [← Option.some_inj.mp hw] at hcmem
      exact hnm hcmem
    · rw [dictGet_insert_ne _ _ _ _ huv] at hu
      rw [dictGet_insert_ne _ _ _ _ hwv] at hw
      exact hp u w c hadj hu hw

theorem foldl_colorStep_proper (G : Graph V) (hwf : GraphWF G) (l : List V) :
    ∀ d : Dict V, ProperOn G d → ProperOn G (l.foldl (colorStep G) d) := by
  induction l with
  | nil => intro d hp; exact hp
  | cons v l' ih =>
    intro d hp
    exact ih (colorStep G d v) (colorStep_proper G hwf d v hp)

theorem foldl_colorStep_total (G : Graph V) (l : List V) :
    ∀ (d : Dict V) (x : V), (x ∈ l ∨ (dictGet d x).isSome = true) →
      (dictGet (l.foldl (colorStep G) d) x).isSome = true := by
  induction l with
  | nil =>
    intro d x h
    rcases h with h | h
    · exact absurd h (List.not_mem_nil x)
    · exact h
  | cons v l' ih =>
    intro d x h
    apply ih
    by_cases hxv : x = v
    · subst hxv
      right
      unfold colorStep
      rw [dictGet_insert_self]
      rfl
    · rcases h with h | h
      · rcases List.mem_cons.mp h with h1 | h1
        · exact absurd h1 hxv
        · exact Or.inl h1
      · right
        exact dictGet_insert_isSome _ _ _ _ h

/-! ### Edge list and zero conflicts -/

theorem mem_edgeListAux (G : Graph V) (l : List V) (e : V × V)
    (h : e ∈ edgeListAux G l) : G.adj e.1 e.2 = true ∧ e.1 ∈ l ∧ e.2 ∈ l := by
  induction l with
  | nil => exact absurd h (List.not_mem_nil e)
  | cons u rest ih =>
    rw [edgeListAux] at h
    rcases List.mem_append.mp h with h1 | h1
    · obtain ⟨w, hw, hww⟩ := List.mem_map.mp h1
      obtain ⟨hwr, hadj⟩ := List.mem_filter.mp hw
      subst hww
      exact ⟨hadj, List.mem_cons_self u rest, List.mem_cons_of_mem u hwr⟩
    · obtain ⟨h2, h3, h4⟩ := ih h1
      exact ⟨h2, List.mem_cons_of_mem u h3, List.mem_cons_of_mem u h4⟩

theorem count_conflicts_eq_zero (G : Graph V) (d : Dict V)
    (htot : ∀ x ∈ G.nodes, (dictGet d x).isSome = true)
    (hp : ProperOn G d) : count_conflicts G d = 0 := by
  unfold count_conflicts
  rw [List.length_eq_zero]
  rw [List.filter_eq_nil]
  intro e he
  obtain ⟨hadj, h1, h2⟩ := mem_edgeListAux G G.nodes e he
  obtain ⟨c1, hc1⟩ := Option.isSome_iff_exists.mp (htot e.1 h1)
  obtain ⟨c2, hc2⟩ := Option.isSome_iff_exists.mp (htot e.2 h2)
  simp only [decide_eq_true_eq]
  intro heq
  rw [hc1, hc2] at heq
  exact hp e.1 e.2 c1 hadj hc1 (heq ▸ hc2)

/-! ### ssort and argmax membership -/

theorem mem_sinsert {α : Type} (lt : α → α → Bool) (x y : α) (l : List α) :
    y ∈ sinsert lt x l ↔ y = x ∨ y ∈ l := by
  induction l with
  | nil => simp [sinsert]
  | cons a as ih =>
    by_cases h : lt a x = true
    · rw [sinsert, if_pos h]
      simp only [List.mem_cons, ih]
      tauto
    · rw [sinsert, if_neg h]
      simp only [List.mem_cons]

theorem mem_ssort {α : Type} (lt : α → α → Bool) (x : α) (l : List α) :
    x ∈ ssort lt l ↔ x ∈ l := by
  induction l with
  | nil => simp [ssort]
  | cons a as ih =>
    rw [ssort, mem_sinsert, ih, List.mem_cons]

theorem foldl_pick_mem {α : Type} (pick : α → α → α)
    (hpick : ∀ a b, pick a b = a ∨ pick a b = b) (l : List α) :
    ∀ x, l.foldl pick x ∈ x :: l := by
  induction l with
  | nil => intro x; exact List.mem_cons_self x []
  | cons y ys ih =>
    intro x
    rcases List.mem_cons.mp (ih (pick x y)) with h | h
    · rcases hpick x y with h2 | h2
      · rw [List.foldl_cons, h, h2]
        exact List.mem_cons_self _ _
      · rw [List.foldl_cons, h, h2]
        exact List.mem_cons_of_mem _ (List.mem_cons_self _ _)
    · exact List.mem_cons_of_mem _ (List.mem_cons_of_mem _ h)

theorem argmaxBy_mem (key : V → Nat × Nat) (l : List V) (v : V)
    (h : argmaxBy key l = some v) : v ∈ l := by
  cases l with
  | nil => exact Option.noConfusion h
  | cons x xs =>
    rw [argmaxBy, Option.some_inj] at h
    subst h
    exact foldl_pick_mem _ (fun a b => by by_cases hl : lexLt (key a) (key b) = true <;> simp [hl]) xs x

theorem argmaxBy_eq_none (key : V → Nat × Nat) (l : List V)
    (h : argmaxBy key l = none) : l = [] := by
  cases l with
  | nil => rfl
  | cons x xs => exact Option.noConfusion h

theorem dsaturGo_proper (G : Graph V) (hwf : GraphWF G) :
    ∀ (fuel : Nat) (unc : List V) (d : Dict V),
      ProperOn G d → ProperOn G (dsaturGo G fuel unc d) := by
  intro fuel
  induction fuel with
  | zero => intro unc d hp; exact hp
  | succ n ih =>
    intro unc d hp
    rw [dsaturGo]
    cases argmaxBy (fun y => (saturation G d y, G.degree y)) unc with
    | none => exact hp
    | some v => exact ih _ _ (colorStep_proper G hwf d v hp)

theorem dsaturGo_total (G : Graph V) :
    ∀ (fuel : Nat) (unc : List V) (d : Dict V), unc.length ≤ fuel →
      (∀ x ∈ G.nodes, x ∈ unc ∨ (dictGet d x).isSome = true) →
      ∀ x ∈ G.nodes, (dictGet (dsaturGo G fuel unc d) x).isSome = true := by
  intro fuel
  induction fuel with
  | zero =>
    intro unc d hlen hinv x hx
    have hu : unc = [] := List.length_eq_zero.mp (Nat.le_zero.mp hlen)
    subst hu
    rcases hinv x hx with h | h
    · exact absurd h (List.not_mem_nil x)
    · exact h
  | succ n ih =>
    intro unc d hlen hinv x hx
    rw [dsaturGo]
    cases hv : argmaxBy (fun y => (saturation G d y, G.degree y)) unc with
    | none =>
      have hu : unc = [] := argmaxBy_eq_none _ _ hv
      subst hu
      rcases hinv x hx with h | h
      · exact absurd h (List.not_mem_nil x)
      · exact h
    | some v =>
      have hvm := argmaxBy_mem _ unc v hv
      apply ih (unc.erase v) (colorStep G d v) ?_ ?_ x hx
      · have := List.length_erase_of_mem hvm
        omega
      · intro y hy
        rcases hinv y hy with h | h
        · by_cases hyv : y = v
          · right
            subst hyv
            unfold colorStep
            rw [dictGet_insert_self]
            rfl
          · exact Or.inl ((List.mem_erase_of_ne hyv).mpr h)
        · exact Or.inr (dictGet_insert_isSome _ _ _ _ h)

theorem properOn_nil (G : Graph V) : ProperOn G ([] : Dict V) := by
  intro u w c _ hu _
  exact Option.noConfusion hu

/-- C2: on every finite well-formed graph, both `greedy_coloring` and
`dsatur_coloring` return conflict count 0 — every vertex gets a color
avoiding all colors already on its neighbors, so no edge is
monochromatic and the final scan over the edges counts nothing. -/
theorem claim2_no_conflicts (G : Graph V) (hwf : GraphWF G) :
    (greedy_coloring G).conflicts = 0 ∧ (dsatur_coloring G).conflicts = 0 := by
  constructor
  · show count_conflicts G ((greedyOrder G).foldl (colorStep G) []) = 0
    apply count_conflicts_eq_zero
    · intro x hx
      apply foldl_colorStep_total
      left
      unfold greedyOrder
      exact (mem_ssort _ x G.nodes).mpr hx
    · exact foldl_colorStep_proper G hwf _ [] (properOn_nil G)
  · show count_conflicts G (dsaturGo G G.nodes.length G.nodes []) = 0
    apply count_conflicts_eq_zero
    · exact dsaturGo_total G G.nodes.length G.nodes [] (le_refl _)
        (fun x hx => Or.inl hx)
    · exact dsaturGo_proper G hwf G.nodes.length G.nodes [] (properOn_nil G)

/-- Witness for C2 on the triangle graph. -/
theorem claim2_no_conflicts_witness :
    GraphWF triangle ∧
    ((greedy_coloring triangle).conflicts = 0 ∧
     (dsatur_coloring triangle).conflicts = 0) :=
  ⟨listGraph_WF [1, 2, 3] [(1, 2), (1, 3), (2, 3)] (by decide),
   claim2_no_conflicts triangle
     (listGraph_WF [1, 2, 3] [(1, 2), (1, 3), (2, 3)] (by decide))⟩

/-! ### Claim C3: period-count bound -/

theorem foldl_max_ge_init (l : List Nat) : ∀ a, a ≤ l.foldl Nat.max a := by
  induction l with
  | nil => intro a; exact le_refl a
  | cons x xs ih =>
    intro a
    exact le_trans (Nat.le_max_left a x) (ih (Nat.max a x))

theorem foldl_max_ge_mem (l : List Nat) : ∀ a x, x ∈ l → x ≤ l.foldl Nat.max a := by
  induction l with
  | nil => intro a x hx; exact absurd hx (List.not_mem_nil x)
  | cons y ys ih =>
    intro a x hx
    rcases List.mem_cons.mp hx with h | h
    · subst h
      exact le_trans (Nat.le_max_right a x) (foldl_max_ge_init ys (Nat.max a x))
    · exact ih (Nat.max a y) x h

theorem foldl_max_le (l : List Nat) : ∀ a B, a ≤ B → (∀ x ∈ l, x ≤ B) →
    l.foldl Nat.max a ≤ B := by
  induction l with
  | nil => intro a B ha _; exact ha
  | cons y ys ih =>
    intro a B ha hl
    apply ih (Nat.max a y) B
    · exact Nat.max_le.mpr ⟨ha, hl y (List.mem_cons_self y ys)⟩
    · intro x hx
      exact hl x (List.mem_cons_of_mem y hx)

theorem degree_le_maxDegree (G : Graph V) (v : V) (hv : v ∈ G.nodes) :
    G.degree v ≤ maxDegree G := by
  unfold maxDegree
  exact foldl_max_ge_mem _ 0 _ (List.mem_map_of_mem G.degree hv)

theorem colorStep_valuesLe (G : Graph V) (d : Dict V) (v : V) (hv : v ∈ G.nodes)
    (hd : ValuesLe d (maxDegree G + 1)) :
    ValuesLe (colorStep G d v) (maxDegree G + 1) := by
  intro p hp
  rcases mem_of_dictInsert _ _ _ _ hp with h | h
  · exact hd p h
  · rw [h]
    show leastFree ((G.neighbors v).filterMap (fun u => dictGet d u)) ≤ maxDegree G + 1
    have h1 := leastFree_le ((G.neighbors v).filterMap (fun u => dictGet d u))
    have h2 : ((G.neighbors v).filterMap (fun u => dictGet d u)).length ≤ (G.neighbors v).length :=
      List.length_filterMap_le _ _
    have h3 : (G.neighbors v).length = G.degree v := rfl
    have h4 := degree_le_maxDegree G v hv
    omega

theorem foldl_colorStep_valuesLe (G : Graph V) (l : List V) (hl : ∀ x ∈ l, x ∈ G.nodes) :
    ∀ d : Dict V, ValuesLe d (maxDegree G + 1) →
      ValuesLe (l.foldl (colorStep G) d) (maxDegree G + 1) := by
  induction l with
  | nil => intro d hd; exact hd
  | cons v l' ih =>
    intro d hd
    exact ih (fun x hx => hl x (List.mem_cons_of_mem v hx)) _
      (colorStep_valuesLe G d v (hl v (List.mem_cons_self v l')) hd)

theorem dsaturGo_valuesLe (G : Graph V) :
    ∀ (fuel : Nat) (unc : List V) (d : Dict V), (∀ x ∈ unc, x ∈ G.nodes) →
      ValuesLe d (maxDegree G + 1) →
      ValuesLe (dsaturGo G fuel unc d) (maxDegree G + 1) := by
  intro fuel
  induction fuel with
  | zero => intro unc d _ hd; exact hd
  | succ n ih =>
    intro unc d hunc hd
    rw [dsaturGo]
    cases hv : argmaxBy (fun y => (saturation G d y, G.degree y)) unc with
    | none => exact hd
    | some v =>
      apply ih (unc.erase v) _ (fun x hx => hunc x (List.mem_of_mem_erase hx))
      exact colorStep_valuesLe G d v (hunc v (argmaxBy_mem _ unc v hv)) hd

theorem valuesLe_nil (B : Nat) : ValuesLe ([] : Dict V) B := by
  intro p hp
  exact absurd hp (List.not_mem_nil p)

theorem pyMaxD_le (d : Dict V) (B : Nat) (h : ValuesLe d B) : pyMaxD d ≤ B := by
  unfold pyMaxD pyMax dictValues
  cases d with
  | nil => exact Nat.zero_le B
  | cons p rest =>
    simp only [List.map_cons]
    apply foldl_max_le
    · exact h p (List.mem_cons_self p rest)
    · intro x hx
      obtain ⟨q, hq, hqx⟩ := List.mem_map.mp hx
      rw [← hqx]
      exact h q (List.mem_cons_of_mem p hq)

/-- C3: the period counts of `greedy_coloring` and `dsatur_coloring` are
each at most the maximum node degree plus 1: the while loop always finds
a free color among the first (number of colored neighbors) + 1
candidates. -/
theorem claim3_period_bound (G : Graph V) (hwf : GraphWF G) :
    (greedy_coloring G).num_periods ≤ maxDegree G + 1 ∧
    (dsatur_coloring G).num_periods ≤ maxDegree G + 1 := by
  constructor
  · show pyMaxD ((greedyOrder G).foldl (colorStep G) []) ≤ maxDegree G + 1
    apply pyMaxD_le
    apply foldl_colorStep_valuesLe G _ ?_ [] (valuesLe_nil _)
    intro x hx
    unfold greedyOrder at hx
    exact (mem_ssort _ x G.nodes).mp hx
  · show pyMaxD (dsaturGo G G.nodes.length G.nodes []) ≤ maxDegree G + 1
    apply pyMaxD_le
    exact dsaturGo_valuesLe G G.nodes.length G.nodes [] (fun x hx => hx) (valuesLe_nil _)

/-- Witness for C3 on the triangle graph (degree 2, periods 3 ≤ 3). -/
theorem claim3_period_bound_witness :
    GraphWF triangle ∧
    ((greedy_coloring triangle).num_periods ≤ maxDegree triangle + 1 ∧
     (dsatur_coloring triangle).num_periods ≤ maxDegree triangle + 1) :=
  ⟨listGraph_WF [1, 2, 3] [(1, 2), (1, 3), (2, 3)] (by decide),
   claim3_period_bound triangle
     (listGraph_WF [1, 2, 3] [(1, 2), (1, 3), (2, 3)] (by decide))⟩

/-! ### Claim C8: no room reused within a period -/

theorem sinsert_perm {α : Type} (lt : α → α → Bool) (x : α) (l : List α) :
    (sinsert lt x l).Perm (x :: l) := by
  induction l with
  | nil => exact List.Perm.refl _
  | cons a as ih =>
    by_cases h : lt a x = true
    · rw [sinsert, if_pos h]
      exact (List.Perm.cons a ih).trans (List.Perm.swap x a as)
    · rw [sinsert, if_neg h]

theorem ssort_perm {α : Type} (lt : α → α → Bool) (l : List α) :
    (ssort lt l).Perm l := by
  induction l with
  | nil => exact List.Perm.refl _
  | cons a as ih =>
    exact (sinsert_perm lt a (ssort lt as)).trans (List.Perm.cons a ih)

theorem mem_getLast? {α : Type} (l : List α) (a : α) (h : l.getLast? = some a) :
    a ∈ l := by
  induction l with
  | nil => exact Option.noConfusion h
  | cons x xs ih =>
    cases xs with
    | nil =>
      simp only [List.getLast?_singleton, Option.some_inj] at h
      simp [h]
    | cons y ys =>
      rw [List.getLast?_cons_cons] at h
      exact List.mem_cons_of_mem x (ih h)

/-- Shape of one allocation: exactly one row is appended, carrying the
course and period handed in.  Either a room that was free in this period
is taken from the inventory and recorded as used, or the sentinel `-1`
is emitted and the used-set is untouched. -/
theorem allocCourse_shape (rs : List (Int × Nat)) (st : AllocState) (cid : String)
    (tid : Nat) (size : Nat) :
    ∃ rid : Int,
      (allocCourse rs st cid tid size).rows = st.rows ++ [⟨cid, tid, rid⟩] ∧
      ((rid ∈ rs.map (fun r => r.1) ∧ rid ∉ st.used tid ∧
        (allocCourse rs st cid tid size).used =
          fun t => if t = tid then rid :: st.used t else st.used t) ∨
       (rid = -1 ∧ (allocCourse rs st cid tid size).used = st.used)) := by
  unfold allocCourse
  cases hf : (rs.find? (fun r => decide (r.1 ∉ st.used tid) && decide (size ≤ r.2))).map
      (fun r => r.1) with
  | some rid =>
    obtain ⟨r, hr, hrid⟩ := Option.map_eq_some'.mp hf
    have hmem := List.mem_of_find?_eq_some hr
    have hpred := List.find?_some hr
    simp only [Bool.and_eq_true, decide_eq_true_eq] at hpred
    refine ⟨rid, rfl, Or.inl ⟨?_, ?_, rfl⟩⟩
    · rw [← hrid]
      exact List.mem_map_of_mem (fun q => q.1) hmem
    · rw [← hrid]
      exact hpred.1
  | none =>
    cases hl : ((rs.map (fun r => r.1)).filter
        (fun rid => decide (rid ∉ st.used tid))).getLast? with
    | some rid =>
      have hmem := mem_getLast? _ _ hl
      have hfil := List.mem_filter.mp hmem
      refine ⟨rid, rfl, Or.inl ⟨hfil.1, ?_, rfl⟩⟩
      have := hfil.2
      simpa using this
    | none => exact ⟨-1, rfl, Or.inr ⟨rfl, rfl⟩⟩

theorem allocCourse_inv (rs : List (Int × Nat)) (st : AllocState) (cid : String)
    (tid : Nat) (size : Nat)
    (h1 : ∀ r ∈ st.rows, r.rid ≠ -1 → r.rid ∈ st.used r.tid)
    (h2 : List.Pairwise
      (fun r1 r2 : RoomAssignment => r1.tid = r2.tid → r1.rid ≠ -1 → r1.rid ≠ r2.rid)
      st.rows) :
    (∀ r ∈ (allocCourse rs st cid tid size).rows, r.rid ≠ -1 →
      r.rid ∈ (allocCourse rs st cid tid size).used r.tid) ∧
    List.Pairwise
      (fun r1 r2 : RoomAssignment => r1.tid = r2.tid → r1.rid ≠ -1 → r1.rid ≠ r2.rid)
      (allocCourse rs st cid tid size).rows := by
  obtain ⟨rid, hrows, hcase⟩ := allocCourse_shape rs st cid tid size
  rw [hrows]
  rcases hcase with ⟨hmem, hfree, hused⟩ | ⟨hsent, hused⟩
  · rw [hused]
    constructor
    · intro r hr hne
      rcases List.mem_append.mp hr with h | h
      · have hin := h1 r h hne
        by_cases ht : r.tid = tid
        · simp only [ht, if_pos rfl]
          exact List.mem_cons_of_mem _ (ht ▸ hin)
        · simp only [if_neg ht]
          exact hin
      · have hr' : r = ⟨cid, tid, rid⟩ := by simpa using h
        subst hr'
        simp
    · rw [List.pairwise_append]
      refine ⟨h2, List.pairwise_singleton _ _, ?_⟩
      intro r hr r' hr'
      have hr2 : r' = ⟨cid, tid, rid⟩ := by simpa using hr'
      subst hr2
      intro htid hne heq
      have hin := h1 r hr hne
      rw [htid] at hin
      rw [heq] at hin
      exact hfree hin
  · rw [hused]
    constructor
    · intro r hr hne
      rcases List.mem_append.mp hr with h | h
      · exact h1 r h hne
      · have hr' : r = ⟨cid, tid, rid⟩ := by simpa using h
        subst hr'
        simp only at hne
        exact absurd hsent hne
    · rw [List.pairwise_append]
      refine ⟨h2, List.pairwise_singleton _ _, ?_⟩
      intro r hr r' hr'
      have hr2 : r' = ⟨cid, tid, rid⟩ := by simpa using hr'
      subst hr2
      intro htid hne heq
      simp only at heq
      rw [hsent] at heq
      exact hne heq

theorem groupFold_inv (rs : List (Int × Nat)) (group : List (String × Nat × Nat)) :
    ∀ st : AllocState,
      ((∀ r ∈ st.rows, r.rid ≠ -1 → r.rid ∈ st.used r.tid) ∧
       List.Pairwise
         (fun r1 r2 : RoomAssignment => r1.tid = r2.tid → r1.rid ≠ -1 → r1.rid ≠ r2.rid)
         st.rows) →
      ((∀ r ∈ (group.foldl (allocGroupStep rs) st).rows, r.rid ≠ -1 →
          r.rid ∈ (group.foldl (allocGroupStep rs) st).used r.tid) ∧
       List.Pairwise
         (fun r1 r2 : RoomAssignment => r1.tid = r2.tid → r1.rid ≠ -1 → r1.rid ≠ r2.rid)
         (group.foldl (allocGroupStep rs) st).rows) := by
  induction group with
  | nil => intro st h; exact h
  | cons e rest ih =>
    intro st h
    exact ih _ (allocCourse_inv rs st e.1 e.2.1 e.2.2 h.1 h.2)

theorem tidsFold_inv (rs : List (Int × Nat)) (timeslots : List Nat)
    (df : List (String × Nat × Nat)) (tids : List Nat) :
    ∀ st : AllocState,
      ((∀ r ∈ st.rows, r.rid ≠ -1 → r.rid ∈ st.used r.tid) ∧
       List.Pairwise
         (fun r1 r2 : RoomAssignment => r1.tid = r2.tid → r1.rid ≠ -1 → r1.rid ≠ r2.rid)
         st.rows) →
      ((∀ r ∈ (tids.foldl (allocTidStep rs timeslots df) st).rows, r.rid ≠ -1 →
          r.rid ∈ (tids.foldl (allocTidStep rs timeslots df) st).used r.tid) ∧
       List.Pairwise
         (fun r1 r2 : RoomAssignment => r1.tid = r2.tid → r1.rid ≠ -1 → r1.rid ≠ r2.rid)
         (tids.foldl (allocTidStep rs timeslots df) st).rows) := by
  induction tids with
  | nil => intro st h; exact h
  | cons t rest ih =>
    intro st h
    apply ih
    unfold allocTidStep
    by_cases ht : t ∈ timeslots
    · rw [if_pos ht]
      exact groupFold_inv rs _ st h
    · rw [if_neg ht]
      exact h

/-- C8: in the output of `allocate_rooms`, within one period no
non-sentinel room id is given to two distinct courses — each room that
is handed out is recorded in `rooms_used[tid]` and both selection paths
pick only rooms not yet recorded there. -/
theorem claim8_no_room_sharing (enroll : List (String × Nat)) (timeslots : List Nat)
    (course_period : List (String × Nat)) (roomsShuffled : List (Int × Nat)) :
    ∀ r1 ∈ allocate_rooms enroll timeslots course_period roomsShuffled,
    ∀ r2 ∈ allocate_rooms enroll timeslots course_period roomsShuffled,
      r1.tid = r2.tid → r1.rid = r2.rid → r1.rid ≠ -1 → r1.course = r2.course := by
  intro r1 h1 r2 h2 htid hrid hne
  by_contra hcc
  have hne12 : r1 ≠ r2 := fun he => hcc (by rw [he])
  have hinv := tidsFold_inv (ssort (fun a b => a.2 < b.2) roomsShuffled) timeslots
    (dfCoursesOf enroll course_period)
    (ssort (fun a b => a < b) (uniq ((dfCoursesOf enroll course_period).map (fun r => r.2.1))))
    ⟨[], fun _ => []⟩
    ⟨fun r hr => absurd hr (List.not_mem_nil r), List.Pairwise.nil⟩
  have hsymm : Symmetric
      (fun r1 r2 : RoomAssignment => r1.tid = r2.tid → r1.rid ≠ -1 → r1.rid ≠ r2.rid) := by
    intro a b hab hba hbne heq
    have hane : a.rid ≠ -1 := by rw [heq] at hbne; exact hbne
    exact hab hba.symm hane heq.symm
  have := List.Pairwise.forall hsymm hinv.2 h1 h2 hne12
  exact this htid hne hrid

/-- Witness for C8 at the spec's §8 room scenario. -/
theorem claim8_no_room_sharing_witness :
    (⟨"A", 1, 3⟩ : RoomAssignment) ∈
      allocate_rooms [("A", 90), ("B", 60), ("C", 20)] [1]
        [("A", 1), ("B", 1), ("C", 1)] [(1, 30), (2, 50), (3, 100)] ∧
    (⟨"A", 1, 3⟩ : RoomAssignment).course = (⟨"A", 1, 3⟩ : RoomAssignment).course :=
  ⟨by decide,
   claim8_no_room_sharing [("A", 90), ("B", 60), ("C", 20)] [1]
     [("A", 1), ("B", 1), ("C", 1)] [(1, 30), (2, 50), (3, 100)]
     ⟨"A", 1, 3⟩ (by decide) ⟨"A", 1, 3⟩ (by decide) rfl rfl (by decide)⟩

/-! ### Claim C7: exactly one row per valid (course, period) pair -/

theorem mem_uniqAux {α : Type} [DecidableEq α] (l : List α) :
    ∀ (seen : List α) (x : α), x ∈ uniqAux seen l ↔ x ∈ l ∧ x ∉ seen := by
  induction l with
  | nil => intro seen x; simp [uniqAux]
  | cons a as ih =>
    intro seen x
    by_cases ha : a ∈ seen
    · rw [uniqAux, if_pos ha, ih]
      constructor
      · rintro ⟨h1, h2⟩
        exact ⟨List.mem_cons_of_mem a h1, h2⟩
      · rintro ⟨h1, h2⟩
        rcases List.mem_cons.mp h1 with h3 | h3
        · subst h3
          exact absurd ha h2
        · exact ⟨h3, h2⟩
    · rw [uniqAux, if_neg ha]
      constructor
      · intro h
        rcases List.mem_cons.mp h with h3 | h3
        · subst h3
          exact ⟨List.mem_cons_self x as, ha⟩
        · rw [ih] at h3
          refine ⟨List.mem_cons_of_mem a h3.1, ?_⟩
          intro hx
          exact h3.2 (List.mem_cons_of_mem a hx)
      · rintro ⟨h1, h2⟩
        by_cases hxa : x = a
        · subst hxa
          exact List.mem_cons_self x _
        · have h3 : x ∈ as := by
            rcases List.mem_cons.mp h1 with h | h
            · exact absurd h hxa
            · exact h
          apply List.mem_cons_of_mem
          rw [ih]
          refine ⟨h3, ?_⟩
          intro hx
          rcases List.mem_cons.mp hx with h4 | h4
          · exact hxa h4
          · exact h2 h4

theorem mem_uniq {α : Type} [DecidableEq α] (l : List α) (x : α) :
    x ∈ uniq l ↔ x ∈ l := by
  rw [uniq, mem_uniqAux]
  simp

theorem uniqAux_nodup {α : Type} [DecidableEq α] (l : List α) :
    ∀ seen : List α, (uniqAux seen l).Nodup := by
  induction l with
  | nil => intro seen; exact List.nodup_nil
  | cons a as ih =>
    intro seen
    by_cases ha : a ∈ seen
    · rw [uniqAux, if_pos ha]
      exact ih seen
    · rw [uniqAux, if_neg ha]
      refine List.nodup_cons.mpr ⟨?_, ih (a :: seen)⟩
      intro hmem
      rw [mem_uniqAux] at hmem
      exact hmem.2 (List.mem_cons_self a seen)

theorem uniq_nodup {α : Type} [DecidableEq α] (l : List α) : (uniq l).Nodup :=
  uniqAux_nodup l []

theorem ssort_nodup {α : Type} (lt : α → α → Bool) (l : List α) (h : l.Nodup) :
    (ssort lt l).Nodup :=
  ((ssort_perm lt l).nodup_iff).mpr h

theorem allocCourse_countCourse (rs : List (Int × Nat)) (st : AllocState)
    (cid : String) (tid : Nat) (size : Nat) (c : String) :
    ((allocCourse rs st cid tid size).rows.countP (fun r => decide (r.course = c))) =
    st.rows.countP (fun r => decide (r.course = c)) + (if cid = c then 1 else 0) := by
  obtain ⟨rid, hrows, -⟩ := allocCourse_shape rs st cid tid size
  rw [hrows, List.countP_append]
  simp [List.countP_cons]

theorem groupFold_countCourse (rs : List (Int × Nat)) (c : String) :
    ∀ (group : List (String × Nat × Nat)) (st : AllocState),
      ((group.foldl (allocGroupStep rs) st).rows.countP (fun r => decide (r.course = c))) =
      st.rows.countP (fun r => decide (r.course = c)) +
        group.countP (fun e => decide (e.1 = c)) := by
  intro group
  induction group with
  | nil => intro st; simp
  | cons e rest ih =>
    intro st
    rw [List.foldl_cons, ih, List.countP_cons]
    show (allocCourse rs st e.1 e.2.1 e.2.2).rows.countP _ + _ = _
    rw [allocCourse_countCourse]
    by_cases hc : e.1 = c <;> simp [hc] <;> omega

theorem tidsFold_countCourse (rs : List (Int × Nat)) (timeslots : List Nat)
    (df : List (String × Nat × Nat)) (c : String) :
    ∀ (tids : List Nat) (st : AllocState),
      ((tids.foldl (allocTidStep rs timeslots df) st).rows.countP
          (fun r => decide (r.course = c))) =
      st.rows.countP (fun r => decide (r.course = c)) +
        (tids.map (fun t => if t ∈ timeslots then
            (df.filter (fun r => decide (r.2.1 = t))).countP (fun e => decide (e.1 = c))
          else 0)).sum := by
  intro tids
  induction tids with
  | nil => intro st; simp
  | cons t rest ih =>
    intro st
    rw [List.foldl_cons, ih, List.map_cons, List.sum_cons]
    unfold allocTidStep
    by_cases ht : t ∈ timeslots
    · rw [if_pos ht, if_pos ht, groupFold_countCourse]
      have hperm := (ssort_perm (fun a b : String × Nat × Nat => decide (a.2.2 > b.2.2))
        (df.filter (fun r => decide (r.2.1 = t)))).countP_eq (fun e => decide (e.1 = c))
      rw [hperm]
      omega
    · rw [if_neg ht, if_neg ht]
      omega

theorem countP_pair_unique (l : List (String × Nat)) (c : String) (p t : Nat) :
    (l.map Prod.fst).Nodup → (c, p) ∈ l →
    (l.countP (fun e => decide (e.1 = c) && decide (e.2 = t))) =
      if t = p then 1 else 0 := by
  induction l with
  | nil => intro _ h; exact absurd h (List.not_mem_nil _)
  | cons e rest ih =>
    intro hnd hmem
    rw [List.map_cons, List.nodup_cons] at hnd
    rw [List.countP_cons]
    rcases List.mem_cons.mp hmem with h | h
    · have he : e = (c, p) := h.symm
      subst he
      have hz : rest.countP (fun q => decide (q.1 = c) && decide (q.2 = t)) = 0 := by
        apply List.countP_eq_zero.mpr
        intro q hq
        have hq1 : q.1 ≠ c := by
          intro hqc
          apply hnd.1
          rw [← hqc]
          exact List.mem_map.mpr ⟨q, hq, rfl⟩
        simp [hq1]
      rw [hz]
      by_cases hpt : t = p
      · subst hpt
        simp
      · have hpt2 : ¬ (p = t) := fun h2 => hpt h2.symm
        simp [hpt, hpt2]
    · have he1 : e.1 ≠ c := by
        intro hec
        apply hnd.1
        rw [hec]
        exact List.mem_map.mpr ⟨(c, p), h, rfl⟩
      have hpred : (decide (e.1 = c) && decide (e.2 = t)) = false := by
        simp [he1]
      rw [hpred]
      simp only [Bool.false_eq_true, if_false]
      rw [ih hnd.2 h]
      omega

theorem sum_map_single (f : Nat → Nat) (p : Nat) :
    ∀ tids : List Nat, tids.Nodup → (∀ t, t ≠ p → f t = 0) →
      (tids.map f).sum = if p ∈ tids then f p else 0 := by
  intro tids
  induction tids with
  | nil => intro _ _; simp
  | cons t rest ih =>
    intro hnd hf
    rw [List.nodup_cons] at hnd
    rw [List.map_cons, List.sum_cons, ih hnd.2 hf]
    by_cases htp : t = p
    · subst htp
      have hp : t ∉ rest := hnd.1
      simp [hp]
    · rw [hf t htp]
      by_cases hpr : p ∈ rest
      · have : p ∈ t :: rest := List.mem_cons_of_mem t hpr
        simp [hpr, this]
      · have : p ∉ t :: rest := by
          intro hx
          rcases List.mem_cons.mp hx with h | h
          · exact htp h.symm
          · exact hpr h
        simp [hpr, this]

theorem groupFold_rows_from (rs : List (Int × Nat)) (group : List (String × Nat × Nat)) :
    ∀ (st : AllocState) (r : RoomAssignment),
      r ∈ (group.foldl (allocGroupStep rs) st).rows →
      r ∈ st.rows ∨ ∃ e ∈ group, r.course = e.1 ∧ r.tid = e.2.1 ∧
        (r.rid = -1 ∨ r.rid ∈ rs.map (fun q => q.1)) := by
  induction group with
  | nil => intro st r h; exact Or.inl h
  | cons e rest ih =>
    intro st r h
    rw [List.foldl_cons] at h
    rcases ih _ r h with h1 | h1
    · unfold allocGroupStep at h1
      obtain ⟨rid, hrows, hcase⟩ := allocCourse_shape rs st e.1 e.2.1 e.2.2
      rw [hrows] at h1
      rcases List.mem_append.mp h1 with h2 | h2
      · exact Or.inl h2
      · have hr : r = ⟨e.1, e.2.1, rid⟩ := by simpa using h2
        subst hr
        refine Or.inr ⟨e, List.mem_cons_self e rest, rfl, rfl, ?_⟩
        rcases hcase with ⟨hmem, -, -⟩ | ⟨hsent, -⟩
        · exact Or.inr hmem
        · exact Or.inl hsent
    · obtain ⟨e', he', hprops⟩ := h1
      exact Or.inr ⟨e', List.mem_cons_of_mem e he', hprops⟩

theorem tidsFold_rows_from (rs : List (Int × Nat)) (timeslots : List Nat)
    (df : List (String × Nat × Nat)) (tids : List Nat) :
    ∀ (st : AllocState) (r : RoomAssignment),
      r ∈ (tids.foldl (allocTidStep rs timeslots df) st).rows →
      r ∈ st.rows ∨ ∃ e ∈ df, r.course = e.1 ∧ r.tid = e.2.1 ∧
        (r.rid = -1 ∨ r.rid ∈ rs.map (fun q => q.1)) := by
  induction tids with
  | nil => intro st r h; exact Or.inl h
  | cons t rest ih =>
    intro st r h
    rw [List.foldl_cons] at h
    rcases ih _ r h with h1 | h1
    · unfold allocTidStep at h1
      by_cases ht : t ∈ timeslots
      · rw [if_pos ht] at h1
        rcases groupFold_rows_from rs _ st r h1 with h2 | h2
        · exact Or.inl h2
        · obtain ⟨e, he, hprops⟩ := h2
          rw [mem_ssort] at he
          exact Or.inr ⟨e, (List.mem_filter.mp he).1, hprops⟩
      · rw [if_neg ht] at h1
        exact Or.inl h1
    · exact Or.inr h1

/-- C7 amended: with unique course keys, `allocate_rooms` emits exactly
one row per (course, period) pair whose period occurs in the timeslot
table, and NO row for a pair whose period is not a valid timeslot
(room_allocator.py:52-53 skips such groups); every emitted row's
(course, period) comes from the period assignment, and its room id is
either the sentinel `-1` (room exhaustion does not raise) or drawn from
the room inventory. -/
theorem claim7_exactly_one_row (enroll : List (String × Nat)) (timeslots : List Nat)
    (course_period : List (String × Nat)) (roomsShuffled : List (Int × Nat))
    (hkeys : (course_period.map Prod.fst).Nodup) :
    (∀ cp ∈ course_period,
      ((allocate_rooms enroll timeslots course_period roomsShuffled).countP
        (fun r => decide (r.course = cp.1))) = if cp.2 ∈ timeslots then 1 else 0) ∧
    (∀ r ∈ allocate_rooms enroll timeslots course_period roomsShuffled,
      (r.course, r.tid) ∈ course_period ∧
      (r.rid = -1 ∨ r.rid ∈ roomsShuffled.map (fun q => q.1))) := by
  constructor
  · rintro ⟨c, p⟩ hcp
    have hdf : ∀ t : Nat, (((dfCoursesOf enroll course_period).filter
        (fun r => decide (r.2.1 = t))).countP (fun e => decide (e.1 = c))) =
        if t = p then 1 else 0 := by
      intro t
      rw [List.countP_filter]
      unfold dfCoursesOf
      rw [List.countP_map]
      have hcomp : ((fun e : String × Nat × Nat => decide (e.1 = c) && decide (e.2.1 = t)) ∘
          (fun e : String × Nat => (e.1, e.2, lookupSize enroll e.1))) =
          (fun e : String × Nat => decide (e.1 = c) && decide (e.2 = t)) := rfl
      rw [hcomp]
      exact countP_pair_unique course_period c p t hkeys hcp
    have hf : ∀ t : Nat, t ≠ p →
        (if t ∈ timeslots then (((dfCoursesOf enroll course_period).filter
          (fun r => decide (r.2.1 = t))).countP (fun e => decide (e.1 = c))) else 0) = 0 := by
      intro t ht
      by_cases hts : t ∈ timeslots
      · rw [if_pos hts, hdf t, if_neg ht]
      · rw [if_neg hts]
    have hnd : (ssort (fun a b : Nat => decide (a < b))
        (uniq ((dfCoursesOf enroll course_period).map (fun r => r.2.1)))).Nodup :=
      ssort_nodup _ _ (uniq_nodup _)
    have hin : p ∈ ssort (fun a b : Nat => decide (a < b))
        (uniq ((dfCoursesOf enroll course_period).map (fun r => r.2.1))) := by
      rw [mem_ssort, mem_uniq]
      apply List.mem_map.mpr
      refine ⟨(c, p, lookupSize enroll c), ?_, rfl⟩
      unfold dfCoursesOf
      exact List.mem_map.mpr ⟨(c, p), hcp, rfl⟩
    show (((ssort (fun a b : Nat => decide (a < b))
        (uniq ((dfCoursesOf enroll course_period).map (fun r => r.2.1)))).foldl
        (allocTidStep (ssort (fun a b : Int × Nat => decide (a.2 < b.2)) roomsShuffled)
          timeslots (dfCoursesOf enroll course_period))
        ⟨[], fun _ => []⟩).rows.countP (fun r => decide (r.course = c))) =
      if p ∈ timeslots then 1 else 0
    rw [tidsFold_countCourse]
    rw [sum_map_single _ p _ hnd hf]
    rw [if_pos hin]
    simp only [List.countP_nil, Nat.zero_add]
    by_cases hpt : p ∈ timeslots
    · rw [if_pos hpt, if_pos hpt, hdf p, if_pos rfl]
    · rw [if_neg hpt, if_neg hpt]
  · intro r hr
    have hr2 : r ∈ ((ssort (fun a b : Nat => decide (a < b))
        (uniq ((dfCoursesOf enroll course_period).map (fun q => q.2.1)))).foldl
        (allocTidStep (ssort (fun a b : Int × Nat => decide (a.2 < b.2)) roomsShuffled)
          timeslots (dfCoursesOf enroll course_period))
        ⟨[], fun _ => []⟩).rows := hr
    rcases tidsFold_rows_from _ _ _ _ _ r hr2 with h | h
    · exact absurd h (List.not_mem_nil r)
    · obtain ⟨e, he, h1, h2, h3⟩ := h
      constructor
      · unfold dfCoursesOf at he
        obtain ⟨cp, hcp, hfe⟩ := List.mem_map.mp he
        rw [h1, h2, ← hfe]
        simpa using hcp
      · rcases h3 with h3 | h3
        · exact Or.inl h3
        · right
          obtain ⟨q, hq, hq2⟩ := List.mem_map.mp h3
          rw [mem_ssort] at hq
          exact List.mem_map.mpr ⟨q, hq, hq2⟩

/-- Witness for the amended C7 at the spec's §8 room scenario. -/
theorem claim7_exactly_one_row_witness :
    (([("A", 1), ("B", 1), ("C", 1)] : List (String × Nat)).map Prod.fst).Nodup ∧
    ((allocate_rooms [("A", 90), ("B", 60), ("C", 20)] [1]
      [("A", 1), ("B", 1), ("C", 1)] [(1, 30), (2, 50), (3, 100)]).countP
        (fun r => decide (r.course = "A"))) = 1 := by
  refine ⟨by decide, ?_⟩
  have h := (claim7_exactly_one_row [("A", 90), ("B", 60), ("C", 20)] [1]
    [("A", 1), ("B", 1), ("C", 1)] [(1, 30), (2, 50), (3, 100)] (by decide)).1
    ("A", 1) (by decide)
  simpa using h

/-! ### Claim C9: the conflict graph -/

theorem addNode_adj (g : Graph V) (a : V) : (addNode g a).adj = g.adj := by
  unfold addNode
  split <;> rfl

theorem addEdge_adj (g : Graph String) (a b x y : String) :
    (addEdge g a b).adj x y = true ↔
      g.adj x y = true ∨ (x = a ∧ y = b) ∨ (x = b ∧ y = a) := by
  show (g.adj x y || (x = a && y = b) || (x = b && y = a)) = true ↔ _
  simp only [Bool.or_eq_true, Bool.and_eq_true, decide_eq_true_eq]
  tauto

theorem addPairsFrom_adj (c : String) (rest : List String) :
    ∀ (g : Graph String) (x y : String),
      (addPairsFrom g c rest).adj x y = true ↔
      g.adj x y = true ∨ (x ≠ y ∧ ((x = c ∧ y ∈ rest) ∨ (y = c ∧ x ∈ rest))) := by
  induction rest with
  | nil => intro g x y; simp [addPairsFrom]
  | cons d rest' ih =>
    intro g x y
    have hstep : addPairsFrom g c (d :: rest') =
        addPairsFrom (if c ≠ d then addEdge g c d else g) c rest' := rfl
    rw [hstep, ih]
    by_cases hcd : c = d
    · subst hcd
      rw [if_neg (fun h => h rfl)]
      constructor
      · rintro (h | ⟨hxy, (⟨hxc, hyr⟩ | ⟨hyc, hxr⟩)⟩)
        · exact Or.inl h
        · exact Or.inr ⟨hxy, Or.inl ⟨hxc, List.mem_cons_of_mem _ hyr⟩⟩
        · exact Or.inr ⟨hxy, Or.inr ⟨hyc, List.mem_cons_of_mem _ hxr⟩⟩
      · rintro (h | ⟨hxy, (⟨hxc, hyr⟩ | ⟨hyc, hxr⟩)⟩)
        · exact Or.inl h
        · rcases List.mem_cons.mp hyr with h2 | h2
          · exact absurd (hxc.trans h2.symm) hxy
          · exact Or.inr ⟨hxy, Or.inl ⟨hxc, h2⟩⟩
        · rcases List.mem_cons.mp hxr with h2 | h2
          · exact absurd (h2.trans hyc.symm) hxy
          · exact Or.inr ⟨hxy, Or.inr ⟨hyc, h2⟩⟩
    · rw [if_pos hcd, addEdge_adj]
      constructor
      · rintro ((h | ⟨hxc, hyd⟩ | ⟨hxd, hyc⟩) | ⟨hxy, (⟨hxc, hyr⟩ | ⟨hyc, hxr⟩)⟩)
        · exact Or.inl h
        · refine Or.inr ⟨?_, Or.inl ⟨hxc, ?_⟩⟩
          · intro h
            exact hcd (hxc.symm.trans (h.trans hyd))
          · rw [hyd]
            exact List.mem_cons_self d rest'
        · refine Or.inr ⟨?_, Or.inr ⟨hyc, ?_⟩⟩
          · intro h
            exact hcd (hyc.symm.trans (h.symm.trans hxd))
          · rw [hxd]
            exact List.mem_cons_self d rest'
        · exact Or.inr ⟨hxy, Or.inl ⟨hxc, List.mem_cons_of_mem _ hyr⟩⟩
        · exact Or.inr ⟨hxy, Or.inr ⟨hyc, List.mem_cons_of_mem _ hxr⟩⟩
      · rintro (h | ⟨hxy, (⟨hxc, hyr⟩ | ⟨hyc, hxr⟩)⟩)
        · exact Or.inl (Or.inl h)
        · rcases List.mem_cons.mp hyr with h2 | h2
          · exact Or.inl (Or.inr (Or.inl ⟨hxc, h2⟩))
          · exact Or.inr ⟨hxy, Or.inl ⟨hxc, h2⟩⟩
        · rcases List.mem_cons.mp hxr with h2 | h2
          · exact Or.inl (Or.inr (Or.inr ⟨h2, hyc⟩))
          · exact Or.inr ⟨hxy, Or.inr ⟨hyc, h2⟩⟩

theorem addPairs_adj (cs : List String) :
    ∀ (g : Graph String) (x y : String),
      (addPairs g cs).adj x y = true ↔
      g.adj x y = true ∨ (x ≠ y ∧ x ∈ cs ∧ y ∈ cs) := by
  induction cs with
  | nil => intro g x y; simp [addPairs]
  | cons c rest ih =>
    intro g x y
    rw [addPairs, ih, addPairsFrom_adj]
    constructor
    · rintro ((h | ⟨hxy, (⟨hxc, hyr⟩ | ⟨hyc, hxr⟩)⟩) | ⟨hxy, hxr, hyr⟩)
      · exact Or.inl h
      · exact Or.inr ⟨hxy, hxc ▸ List.mem_cons_self c rest, List.mem_cons_of_mem _ hyr⟩
      · exact Or.inr ⟨hxy, List.mem_cons_of_mem _ hxr, hyc ▸ List.mem_cons_self c rest⟩
      · exact Or.inr ⟨hxy, List.mem_cons_of_mem _ hxr, List.mem_cons_of_mem _ hyr⟩
    · rintro (h | ⟨hxy, hxm, hym⟩)
      · exact Or.inl (Or.inl h)
      · rcases List.mem_cons.mp hxm with hx1 | hx1 <;> rcases List.mem_cons.mp hym with hy1 | hy1
        · exact absurd (hx1.trans hy1.symm) hxy
        · exact Or.inl (Or.inr ⟨hxy, Or.inl ⟨hx1, hy1⟩⟩)
        · exact Or.inl (Or.inr ⟨hxy, Or.inr ⟨hy1, hx1⟩⟩)
        · exact Or.inr ⟨hxy, hx1, hy1⟩

theorem bool_eq_of_iff {a b : Bool} (h : a = true ↔ b = true) : a = b := by
  cases a <;> cases b <;> simp_all

theorem foldl_addNode_adj (l : List V) : ∀ g : Graph V, (l.foldl addNode g).adj = g.adj := by
  induction l with
  | nil => intro g; rfl
  | cons a rest ih =>
    intro g
    rw [List.foldl_cons, ih, addNode_adj]

theorem studentsFold_adj (nr : List (String × String)) (students : List String) :
    ∀ (g : Graph String) (x y : String),
      ((students.foldl (fun g s => addPairs g (coursesOf nr s)) g).adj x y = true) ↔
      g.adj x y = true ∨
        (x ≠ y ∧ ∃ s ∈ students, x ∈ coursesOf nr s ∧ y ∈ coursesOf nr s) := by
  induction students with
  | nil => intro g x y; simp
  | cons s rest ih =>
    intro g x y
    rw [List.foldl_cons, ih, addPairs_adj]
    constructor
    · rintro ((h | ⟨hxy, hx, hy⟩) | ⟨hxy, s', hs', hx, hy⟩)
      · exact Or.inl h
      · exact Or.inr ⟨hxy, s, List.mem_cons_self s rest, hx, hy⟩
      · exact Or.inr ⟨hxy, s', List.mem_cons_of_mem _ hs', hx, hy⟩
    · rintro (h | ⟨hxy, s', hs', hx, hy⟩)
      · exact Or.inl (Or.inl h)
      · rcases List.mem_cons.mp hs' with h2 | h2
        · subst h2
          exact Or.inl (Or.inr ⟨hxy, hx, hy⟩)
        · exact Or.inr ⟨hxy, s', h2, hx, hy⟩

theorem addNode_nodup (g : Graph V) (a : V) (h : g.nodes.Nodup) :
    (addNode g a).nodes.Nodup := by
  unfold addNode
  by_cases h2 : a ∈ g.nodes
  · rw [if_pos h2]
    exact h
  · rw [if_neg h2]
    show (g.nodes ++ [a]).Nodup
    rw [List.nodup_append]
    refine ⟨h, List.nodup_singleton a, ?_⟩
    intro x hx hxa
    rw [List.mem_singleton] at hxa
    subst hxa
    exact h2 hx

theorem addEdge_nodup (g : Graph String) (a b : String) (h : g.nodes.Nodup) :
    (addEdge g a b).nodes.Nodup :=
  addNode_nodup (addNode g a) b (addNode_nodup g a h)

theorem addPairsFrom_nodup (c : String) (rest : List String) :
    ∀ g : Graph String, g.nodes.Nodup → (addPairsFrom g c rest).nodes.Nodup := by
  induction rest with
  | nil => intro g h; exact h
  | cons d rest' ih =>
    intro g h
    show (addPairsFrom (if c ≠ d then addEdge g c d else g) c rest').nodes.Nodup
    apply ih
    by_cases hcd : c ≠ d
    · rw [if_pos hcd]
      exact addEdge_nodup g c d h
    · rw [if_neg hcd]
      exact h

theorem addPairs_nodup (cs : List String) :
    ∀ g : Graph String, g.nodes.Nodup → (addPairs g cs).nodes.Nodup := by
  induction cs with
  | nil => intro g h; exact h
  | cons c rest ih =>
    intro g h
    rw [addPairs]
    exact ih _ (addPairsFrom_nodup c rest g h)

theorem studentsFold_nodup (nr : List (String × String)) (students : List String) :
    ∀ g : Graph String, g.nodes.Nodup →
      ((students.foldl (fun g s => addPairs g (coursesOf nr s)) g).nodes).Nodup := by
  induction students with
  | nil => intro g h; exact h
  | cons s rest ih =>
    intro g h
    rw [List.foldl_cons]
    exact ih _ (addPairs_nodup _ g h)

theorem foldl_addNode_nodup (l : List V) :
    ∀ g : Graph V, g.nodes.Nodup → (l.foldl addNode g).nodes.Nodup := by
  induction l with
  | nil => intro g h; exact h
  | cons a rest ih =>
    intro g h
    rw [List.foldl_cons]
    exact ih _ (addNode_nodup g a h)

theorem mem_coursesOf (nr : List (String × String)) (s x : String) :
    x ∈ coursesOf nr s ↔ ∃ r ∈ nr, r.1 = s ∧ r.2 = x := by
  unfold coursesOf
  constructor
  · intro h
    obtain ⟨r, hr, hrx⟩ := List.mem_map.mp h
    obtain ⟨hrn, hrs⟩ := List.mem_filter.mp hr
    rw [decide_eq_true_eq] at hrs
    exact ⟨r, hrn, hrs, hrx⟩
  · rintro ⟨r, hrn, hrs, hrx⟩
    apply List.mem_map.mpr
    refine ⟨r, ?_, hrx⟩
    apply List.mem_filter.mpr
    exact ⟨hrn, by rw [decide_eq_true_eq]; exact hrs⟩

theorem build_adj_aux (rows : List (String × String)) (g1 : Graph String)
    (hadj : ∀ x y, g1.adj x y = false) (a b : String) :
    ((uniq ((normRows rows).map (fun r => r.1))).foldl
        (fun g s => addPairs g (coursesOf (normRows rows) s)) g1).adj a b = true ↔
      (a ≠ b ∧ ∃ r1 ∈ rows, ∃ r2 ∈ rows,
        normStudent r1.1 = normStudent r2.1 ∧
        normCourse r1.2 = a ∧ normCourse r2.2 = b) := by
  rw [studentsFold_adj, hadj a b]
  simp only [Bool.false_eq_true, false_or]
  constructor
  · rintro ⟨hab, s, hs, ha, hb⟩
    obtain ⟨r1, hr1, hr1s, hr1a⟩ := (mem_coursesOf _ _ _).mp ha
    obtain ⟨r2, hr2, hr2s, hr2b⟩ := (mem_coursesOf _ _ _).mp hb
    unfold normRows at hr1 hr2
    obtain ⟨q1, hq1, hq1e⟩ := List.mem_map.mp hr1
    obtain ⟨q2, hq2, hq2e⟩ := List.mem_map.mp hr2
    refine ⟨hab, q1, hq1, q2, hq2, ?_, ?_, ?_⟩
    · have e1 : normStudent q1.1 = r1.1 := by rw [← hq1e]
      have e2 : normStudent q2.1 = r2.1 := by rw [← hq2e]
      rw [e1, e2, hr1s, hr2s]
    · have e1 : normCourse q1.2 = r1.2 := by rw [← hq1e]
      rw [e1, hr1a]
    · have e2 : normCourse q2.2 = r2.2 := by rw [← hq2e]
      rw [e2, hr2b]
  · rintro ⟨hab, q1, hq1, q2, hq2, hss, ha, hb⟩
    refine ⟨hab, normStudent q1.1, ?_, ?_, ?_⟩
    · rw [mem_uniq]
      apply List.mem_map.mpr
      refine ⟨(normStudent q1.1, normCourse q1.2), ?_, rfl⟩
      unfold normRows
      exact List.mem_map.mpr ⟨q1, hq1, rfl⟩
    · rw [mem_coursesOf]
      refine ⟨(normStudent q1.1, normCourse q1.2), ?_, rfl, ha⟩
      unfold normRows
      exact List.mem_map.mpr ⟨q1, hq1, rfl⟩
    · rw [mem_coursesOf]
      refine ⟨(normStudent q2.1, normCourse q2.2), ?_, hss.symm, hb⟩
      unfold normRows
      exact List.mem_map.mpr ⟨q2, hq2, rfl⟩

/-- C9: the graph built by `build_conflict_graph_from_enrollments` has
an edge (a,b) iff some student (after identifier normalization: strip
for students, strip+upper for courses) is enrolled in both a and b with
a ≠ b; it has no self-loops, is symmetric, and its node list has no
duplicates (the set-semantics of `networkx` adjacency rules out
duplicate edges by representation). -/
theorem claim9_conflict_graph (rows : List (String × String)) (roster : Option (List String)) :
    (∀ a b, (build_conflict_graph_from_enrollments rows roster).adj a b = true ↔
      (a ≠ b ∧ ∃ r1 ∈ rows, ∃ r2 ∈ rows,
        normStudent r1.1 = normStudent r2.1 ∧
        normCourse r1.2 = a ∧ normCourse r2.2 = b)) ∧
    (∀ a, (build_conflict_graph_from_enrollments rows roster).adj a a = false) ∧
    (∀ a b, (build_conflict_graph_from_enrollments rows roster).adj a b =
      (build_conflict_graph_from_enrollments rows roster).adj b a) ∧
    (build_conflict_graph_from_enrollments rows roster).nodes.Nodup := by
  have hmain : ∀ a b, (build_conflict_graph_from_enrollments rows roster).adj a b = true ↔
      (a ≠ b ∧ ∃ r1 ∈ rows, ∃ r2 ∈ rows,
        normStudent r1.1 = normStudent r2.1 ∧
        normCourse r1.2 = a ∧ normCourse r2.2 = b) := by
    intro a b
    cases roster with
    | none =>
      exact build_adj_aux rows _ (fun x y => by rw [foldl_addNode_adj]; rfl) a b
    | some cs =>
      exact build_adj_aux rows _
        (fun x y => by rw [foldl_addNode_adj, foldl_addNode_adj]; rfl) a b
  refine ⟨hmain, ?_, ?_, ?_⟩
  · intro a
    cases h : (build_conflict_graph_from_enrollments rows roster).adj a a with
    | false => rfl
    | true => exact absurd rfl ((hmain a a).mp h).1
  · intro a b
    apply bool_eq_of_iff
    rw [hmain a b, hmain b a]
    constructor
    · rintro ⟨hab, r1, hr1, r2, hr2, hs, ha, hb⟩
      exact ⟨fun h => hab h.symm, r2, hr2, r1, hr1, hs.symm, hb, ha⟩
    · rintro ⟨hab, r1, hr1, r2, hr2, hs, ha, hb⟩
      exact ⟨fun h => hab h.symm, r2, hr2, r1, hr1, hs.symm, hb, ha⟩
  · cases roster with
    | none =>
      exact studentsFold_nodup _ _ _ (foldl_addNode_nodup _ _ List.nodup_nil)
    | some cs =>
      exact studentsFold_nodup _ _ _
        (foldl_addNode_nodup _ _ (foldl_addNode_nodup _ _ List.nodup_nil))
